import Mathlib

/-!
Verification of the Shrina M3U8 proxy core: playlist rewriting,
content classification, response cache, header templates and the
fetch pipeline, shallowly embedded from the TypeScript sources
(src/proxy.ts, src/mime-types.ts, src/cache.ts, src/domain-templates.ts,
src/index.ts).  Strings are modelled as `List Char`, byte buffers as
`List Nat`, JavaScript objects as functions `String → Option String`
or association lists, and time in milliseconds as `Nat`.
-/

namespace Shrina

/-! ## Generic string helpers (List Char), mirroring the JS string API -/

/-- `pat.isPrefixOf s` for char lists, as a Bool (JS `startsWith`). -/
def lstarts : List Char → List Char → Bool
  | [], _ => true
  | _ :: _, [] => false
  | p :: ps, c :: cs => p == c && lstarts ps cs

/-- JS `includes`: does `s` contain `pat` as a contiguous substring? -/
def containsSub (pat : List Char) : List Char → Bool
  | [] => pat.isEmpty
  | c :: cs => lstarts pat (c :: cs) || containsSub pat cs

/-- JS `endsWith`. -/
def lends (pat s : List Char) : Bool :=
  lstarts pat.reverse s.reverse

/-- The whitespace class used by JS `String.prototype.trim` (ASCII part). -/
def isJsSpace (c : Char) : Bool :=
  c == ' ' || c == '\t' || c == '\n' || c == '\r' ||
  c == Char.ofNat 11 || c == Char.ofNat 12

/-- JS `trim`. -/
def jsTrim (s : List Char) : List Char :=
  ((s.dropWhile isJsSpace).reverse.dropWhile isJsSpace).reverse

/-- JS `toLowerCase` (ASCII). -/
def lowerStr (s : List Char) : List Char := s.map Char.toLower

/-- Prepend a character to the first line of a split. -/
def consHead (c : Char) : List (List Char) → List (List Char)
  | [] => [[c]]
  | l :: ls => (c :: l) :: ls

/-- `content.split(/\r?\n/)`: split on `\n`, also consuming a `\r`
immediately before it. -/
def splitLines : List Char → List (List Char)
  | [] => [[]]
  | [c] => if c = '\n' then [[], []] else [[c]]
  | c :: c2 :: rest =>
    if c = '\n' then [] :: splitLines (c2 :: rest)
    else if c = '\r' ∧ c2 = '\n' then [] :: splitLines rest
    else consHead c (splitLines (c2 :: rest))

/-- `lines.join('\n')`. -/
def joinLF : List (List Char) → List Char
  | [] => []
  | [l] => l
  | l :: ls => l ++ '\n' :: joinLF ls

/-! ## mime-types.ts : transport-stream signature detection -/

/-- The additional sync-byte offsets probed by `detectTransportStream`
(`i * 188` for `i = 1..5`). -/
def tsOffsets : List Nat := [188, 376, 564, 752, 940]

/-- `detectTransportStream` from src/mime-types.ts: requires at least 188
bytes, a `0x47` sync byte at offset 0, and counts sync bytes at the five
further 188-byte strides that are in bounds; detection requires at least
2 sync bytes in total. -/
def detectTransportStream (data : List Nat) : Bool :=
  if data.length < 188 then false
  else if data.getD 0 0 != 0x47 then false
  else
    let syncByteCount :=
      1 + (tsOffsets.countP fun off =>
             decide (off < data.length) && (data.getD off 0 == 0x47))
    decide (2 ≤ syncByteCount)

/-! ## cache.ts : SimpleCache -/

/-- One cache entry (`CacheEntry` in src/cache.ts); `timestamp` is the
`Date.now()` at `set` time, in milliseconds, `ttl` in seconds. -/
structure CacheEntry (α : Type) where
  content : α
  contentType : String
  timestamp : Nat
  ttl : Nat
  deriving Repr, DecidableEq

/-- The cache state: insertion-ordered map from key to entry, plus the
constructor-supplied default TTL (`new SimpleCache()` uses 300). -/
structure SimpleCache (α : Type) where
  entries : List (String × CacheEntry α)
  defaultTtl : Nat
  deriving Repr, DecidableEq

/-- The process-wide cache is `new SimpleCache()` = default TTL 300 s. -/
def defaultCacheTtl : Nat := 300

/-- Replace the value at a key in an association list (first occurrence),
or append at the end: the behaviour of `Map.prototype.set`. -/
def setAssoc (k : String) (v : CacheEntry α) :
    List (String × CacheEntry α) → List (String × CacheEntry α)
  | [] => [(k, v)]
  | (k', v') :: rest =>
    if k' = k then (k, v) :: rest else (k', v') :: setAssoc k v rest

/-- `Map.prototype.get` (first occurrence). -/
def lookupAssoc (k : String) : List (String × CacheEntry α) → Option (CacheEntry α)
  | [] => none
  | (k', v') :: rest => if k' = k then some v' else lookupAssoc k rest

/-- `Map.prototype.delete`. -/
def eraseAssoc (k : String) : List (String × CacheEntry α) → List (String × CacheEntry α)
  | [] => []
  | (k', v') :: rest => if k' = k then rest else (k', v') :: eraseAssoc k rest

/-- `SimpleCache.set` (src/cache.ts:23): note `ttl || this.defaultTtl` —
a `ttl` of `0` is falsy in JS, so it falls back to the default TTL. -/
def cacheSet (c : SimpleCache α) (key : String) (content : α)
    (contentType : String) (ttl : Nat) (now : Nat) : SimpleCache α :=
  let e : CacheEntry α :=
    { content := content, contentType := contentType, timestamp := now,
      ttl := if ttl = 0 then c.defaultTtl else ttl }
  { c with entries := setAssoc key e c.entries }

/-- Is the entry expired at time `now`?  The source computes
`age = (now - timestamp) / 1000` (seconds, exact rational) and tests
`age > ttl`, i.e. `now - timestamp > 1000 * ttl`.  JS subtraction can be
negative (never `> ttl` for `ttl ≥ 0`), matching truncated `Nat`
subtraction. -/
def entryExpired (e : CacheEntry α) (now : Nat) : Bool :=
  decide (1000 * e.ttl < now - e.timestamp)

/-- `SimpleCache.get` (src/cache.ts:39): returns the entry's
`(content, contentType)` if present and fresh; an expired entry is
deleted and `none` returned.  Returns the result and the updated cache. -/
def cacheGet (c : SimpleCache α) (key : String) (now : Nat) :
    Option (α × String) × SimpleCache α :=
  match lookupAssoc key c.entries with
  | none => (none, c)
  | some e =>
    if entryExpired e now then
      (none, { c with entries := eraseAssoc key c.entries })
    else
      (some (e.content, e.contentType), c)

/-- `SimpleCache.cleanup` (src/cache.ts:85): the periodic sweep deletes
every entry whose age exceeds its TTL. -/
def cacheCleanup (c : SimpleCache α) (now : Nat) : SimpleCache α :=
  { c with entries := c.entries.filter fun kv => !entryExpired kv.2 now }

/-- `SimpleCache.getStats` (src/cache.ts:106): both fields are the map
size. -/
def cacheStats (c : SimpleCache α) : Nat × Nat :=
  (c.entries.length, c.entries.length)

/-- The keys of a cache's association list, in order. -/
def assocKeys (l : List (String × CacheEntry α)) : List String :=
  l.map Prod.fst

/-! ## domain-templates.ts : header templates -/

/-- `DomainTemplate` from src/domain-templates.ts.  The `pattern` regular
expression is modelled as a boolean hostname predicate. -/
structure DomainTemplate where
  pattern : String → Bool
  origin : String
  referer : String
  userAgent : Option String
  additionalHeaders : List (String × String)

def DEFAULT_USER_AGENT : String :=
  "Mozilla/5.0 (Windows NT 10.0; Win64; x64; rv:137.0) Gecko/20100101 Firefox/137.0"

/-- An anchored, case-insensitive suffix regex such as
`/\.padorupado\.ru$/i` tests whether the lowercased hostname ends with
the literal suffix. -/
def hostEnds (suf : String) (h : String) : Bool :=
  lends suf.data (lowerStr h.data)

/-- An alternation of anchored suffixes, e.g.
`/(a|b)\.(online|live)$/i`. -/
def hostEndsAny (sufs : List String) (h : String) : Bool :=
  sufs.any fun s => hostEnds s h

/-- Cartesian alternation `(n1|n2|...)\.((t1|t2|...))$`. -/
def hostEndsCombo (names tlds : List String) (h : String) : Bool :=
  names.any fun n => tlds.any fun t => hostEnds (n ++ "." ++ t) h

/-- `/odyssey-\d+\.biz$/i`: lowercased hostname ends with `.biz`,
preceded by one or more digits, preceded by `odyssey-`. -/
def odysseyPat (h : String) : Bool :=
  let hl := lowerStr h.data
  lends ".biz".data hl &&
    (let core := hl.take (hl.length - 4)
     let ds := core.reverse.takeWhile Char.isDigit
     !ds.isEmpty && lends "odyssey-".data (core.take (core.length - ds.length)))

/-- The registered template table `domainTemplates` from
src/domain-templates.ts, in source order (first match wins). -/
def domainTemplates : List DomainTemplate := [
  { pattern := hostEnds ".padorupado.ru", origin := "https://kwik.si",
    referer := "https://kwik.si/", userAgent := none, additionalHeaders := [] },
  { pattern := hostEnds "krussdomi.com", origin := "https://krussdomi.com",
    referer := "https://hls.krussdomi.com/", userAgent := none, additionalHeaders := [] },
  { pattern := hostEnds ".narutokun.xyz", origin := "https://krussdomi.com",
    referer := "https://krussdomi.com/", userAgent := none, additionalHeaders := [] },
  { pattern := hostEnds ".babybayw.xyz", origin := "https://krussdomi.com",
    referer := "https://krussdomi.com/", userAgent := none, additionalHeaders := [] },
  { pattern := hostEnds ".advancedairesearchlab.xyz", origin := "https://krussdomi.com",
    referer := "https://krussdomi.com/", userAgent := none, additionalHeaders := [] },
  { pattern := hostEnds ".habibikun.xyz", origin := "https://bl.krussdomi.com",
    referer := "https://bl.krussdomi.com/", userAgent := none, additionalHeaders := [] },
  { pattern := hostEnds ".akamaized.net", origin := "https://bl.krussdomi.com",
    referer := "https://bl.krussdomi.com/", userAgent := none, additionalHeaders := [] },
  { pattern := hostEnds ".anih1.top", origin := "https://ee.anih1.top",
    referer := "https://ee.anih1.top/", userAgent := none, additionalHeaders := [] },
  { pattern := hostEnds ".xyk3.top", origin := "https://ee.anih1.top",
    referer := "https://ee.anih1.top/", userAgent := none, additionalHeaders := [] },
  { pattern := hostEnds ".premilkyway.com", origin := "https://uqloads.xyz",
    referer := "https://uqloads.xyz/", userAgent := none, additionalHeaders := [] },
  { pattern := hostEnds ".kwikie.ru", origin := "https://kwik.si",
    referer := "https://kwik.si/", userAgent := none, additionalHeaders := [] },
  { pattern := hostEndsAny ["revolutionizingtheweb.xyz", "nextgentechnologytrends.xyz",
      "smartinvestmentstrategies.xyz", "creativedesignstudioxyz.xyz",
      "breakingdigitalboundaries.xyz", "ultimatetechinnovation.xyz"],
    origin := "https://hls.krussdomi.com",
    referer := "https://hls.krussdomi.com/", userAgent := none, additionalHeaders := [] },
  { pattern := hostEnds ".raffaellocdn.net", origin := "https://streameeeeee.site",
    referer := "https://streameeeeee.site/", userAgent := none, additionalHeaders := [] },
  { pattern := hostEndsCombo ["dewbreeze84", "mistyvalley31"] ["online", "live"],
    origin := "https://megacloud.blog",
    referer := "https://megacloud.blog/", userAgent := none, additionalHeaders := [] },
  { pattern := hostEnds "douvid.xyz", origin := "https://megacloud.blog",
    referer := "https://megacloud.blog/", userAgent := none,
    additionalHeaders := [("accept", "*/*"), ("accept-language", "en-US,en;q=0.5"),
      ("sec-fetch-dest", "empty"), ("sec-fetch-mode", "cors"),
      ("sec-fetch-site", "cross-site")] },
  { pattern := hostEndsCombo ["lightningspark77", "thunderwave48", "stormwatch95",
      "windyrays29", "thunderstrike77", "fogtwist21", "rainfallpath36",
      "lightningflash39", "stormwhirl73", "cloudburst82", "drizzleshower19"]
      ["pro", "site", "xyz", "online", "live"],
    origin := "https://megacloud.club",
    referer := "https://megacloud.club/", userAgent := none, additionalHeaders := [] },
  { pattern := hostEnds "clearskydrift45.site", origin := "https://kerolaunochan.online",
    referer := "https://kerolaunochan.online/", userAgent := none, additionalHeaders := [] },
  { pattern := hostEnds ".shadowlandschronicles.com", origin := "https://cloudnestra.com",
    referer := "https://cloudnestra.com/", userAgent := none, additionalHeaders := [] },
  { pattern := hostEndsAny ["sparkrisestudios.xyz", "dreamwavecollective.xyz",
      "urbansagecollective.xyz", "novaquestdynamics.xyz", "boldsageventures.xyz"],
    origin := "https://cloudnestra.com",
    referer := "https://cloudnestra.com/", userAgent := none, additionalHeaders := [] },
  { pattern := hostEnds "putgate.org", origin := "https://cloudnestra.com",
    referer := "https://cloudnestra.com/", userAgent := none, additionalHeaders := [] },
  { pattern := hostEnds ".southboat.site", origin := "https://player.videasy.net",
    referer := "https://player.videasy.net/", userAgent := none, additionalHeaders := [] },
  { pattern := hostEnds ".cdnup.cc", origin := "https://bestwish.lol",
    referer := "https://bestwish.lol/", userAgent := none, additionalHeaders := [] },
  { pattern := hostEnds ".streamupcdn.com", origin := "https://bestwish.lol",
    referer := "https://bestwish.lol/", userAgent := none, additionalHeaders := [] },
  { pattern := hostEnds ".netmagcdn.com", origin := "https://megacloud.club",
    referer := "https://megacloud.club/", userAgent := none, additionalHeaders := [] },
  { pattern := hostEnds "vmeas.cloud", origin := "https://vidmoly.to",
    referer := "https://vidmoly.to/", userAgent := none, additionalHeaders := [] },
  { pattern := hostEnds "nextwaveinitiative.xyz", origin := "https://edgedeliverynetwork.org",
    referer := "https://edgedeliverynetwork.org/", userAgent := none, additionalHeaders := [] },
  { pattern := hostEnds "shadowlandschronicles.com", origin := "https://edgedeliverynetwork.org",
    referer := "https://edgedeliverynetwork.org/", userAgent := none, additionalHeaders := [] },
  { pattern := hostEnds "lightningbolts.ru", origin := "https://vidsrc.cc",
    referer := "https://vidsrc.cc/", userAgent := none, additionalHeaders := [] },
  { pattern := hostEnds ".xelvonwave64.xyz", origin := "https://vidsrc.su",
    referer := "https://vidsrc.su/", userAgent := none, additionalHeaders := [] },
  { pattern := hostEnds "lightningbolt.site", origin := "https://vidsrc.cc",
    referer := "https://vidsrc.cc/", userAgent := none, additionalHeaders := [] },
  { pattern := hostEnds "vidlvod.store", origin := "https://vidlink.pro",
    referer := "https://vidlink.pro/", userAgent := none, additionalHeaders := [] },
  { pattern := hostEnds "vyebzzqlojvrl.top", origin := "https://vidsrc.cc",
    referer := "https://vidsrc.cc/", userAgent := none, additionalHeaders := [] },
  { pattern := hostEndsCombo ["sunnybreeze16", "mgstatics", "cloudydrift38",
      "stormwhirl73", "odyssey", "rainveil36", "sunshinerays93", "sunburst66",
      "sunburst93", "windytrail24", "stormshade84", "clearskyline88",
      "clearbluesky72", "breezygale56", "haildrop77", "frostshine12",
      "frostbite27", "frostywinds57", "icyhailstorm64", "icyhailstorm29",
      "windflash93", "stormdrift27", "tempestcloud61", "rainfallpath36"]
      ["live", "site", "xyz", "online", "pro", "biz", "wiki"],
    origin := "https://megacloud.blog",
    referer := "https://megacloud.blog/", userAgent := none, additionalHeaders := [] },
  { pattern := odysseyPat, origin := "https://megaup.live",
    referer := "https://megaup.live/", userAgent := none, additionalHeaders := [] },
  { pattern := hostEnds "1stkmgv1.com", origin := "https://vidmoly.to",
    referer := "https://vidmoly.to/", userAgent := none, additionalHeaders := [] },
  { pattern := hostEnds "rainstorm92.xyz", origin := "https://megacloud.club",
    referer := "https://megacloud.club/", userAgent := none, additionalHeaders := [] },
  { pattern := hostEnds ".feetcdn.com", origin := "https://kerolaunochan.online",
    referer := "https://kerolaunochan.online/", userAgent := none, additionalHeaders := [] },
  { pattern := hostEndsCombo ["heatwave90", "humidmist27", "frozenbreeze65",
      "drizzlerain73", "sunrays81"] ["pro", "wiki", "live", "online", "xyz"],
    origin := "https://kerolaunochan.live",
    referer := "https://kerolaunochan.live/", userAgent := none, additionalHeaders := [] },
  { pattern := hostEnds "embed.su", origin := "https://embed.su",
    referer := "https://embed.su/", userAgent := none, additionalHeaders := [] },
  { pattern := hostEnds "usbigcdn.cc", origin := "https://embed.su",
    referer := "https://embed.su/", userAgent := none, additionalHeaders := [] },
  { pattern := hostEnds ".congacdn.cc", origin := "https://embed.su",
    referer := "https://embed.su/", userAgent := none, additionalHeaders := [] },
  { pattern := hostEnds ".vkcdn5.com", origin := "https://vkspeed.com",
    referer := "https://vkspeed.com/", userAgent := none, additionalHeaders := [] },
  { pattern := hostEnds ".cloudfront.net", origin := "https://d2zihajmogu5jn.cloudfront.net",
    referer := "https://d2zihajmogu5jn.cloudfront.net/", userAgent := none, additionalHeaders := [] },
  { pattern := hostEnds ".ttvnw.net", origin := "https://www.twitch.tv",
    referer := "https://www.twitch.tv/", userAgent := none, additionalHeaders := [] }
]

/-- `findDomainTemplate` from src/domain-templates.ts:324: first template
whose pattern matches the hostname, else none. -/
def findDomainTemplate (ts : List DomainTemplate) (hostname : String) :
    Option DomainTemplate :=
  ts.find? fun t => t.pattern hostname

/-- The parts of a `URL` object used by `generateHeaders`: `hostname`
(no port) for template matching, `host` (authority, with port) for the
`host` header. -/
structure UrlParts where
  hostname : String
  host : String

/-- A JS object field assignment `headers[k] = v`, on a function model of
the header object. -/
def updateHeader (h : String → Option String) (k v : String) :
    String → Option String :=
  fun k' => if k' = k then some v else h k'

/-- `Object.assign(headers, extra)`: later assignments win. -/
def assignHeaders (h : String → Option String) (l : List (String × String)) :
    String → Option String :=
  l.foldl (fun acc kv => updateHeader acc kv.1 kv.2) h

/-- The object-literal lookup semantics of a JS record: the last binding
of a key wins (later entries override earlier ones). -/
def headerLookupLast : List (String × String) → String → Option String
  | [], _ => none
  | hd :: tl, k =>
    match headerLookupLast tl k with
    | some v => some v
    | none => if hd.1 = k then some hd.2 else none

/-- The fixed default header set built at the top of `generateHeaders`
(src/domain-templates.ts:339). -/
def baseHeaders : String → Option String := fun k =>
  if k = "user-agent" then some DEFAULT_USER_AGENT
  else if k = "accept" then some "*/*"
  else if k = "accept-language" then some "en-US,en;q=0.5"
  else if k = "sec-fetch-dest" then some "empty"
  else if k = "sec-fetch-mode" then some "cors"
  else if k = "sec-fetch-site" then some "cross-site"
  else none

/-- `generateHeaders` from src/domain-templates.ts:336: defaults, then —
if a template matches — origin, referer, optional user-agent and the
merged additional headers, then unconditionally `host`. -/
def generateHeaders (ts : List DomainTemplate) (url : UrlParts) :
    String → Option String :=
  let headers := baseHeaders
  let headers :=
    match findDomainTemplate ts url.hostname with
    | none => headers
    | some t =>
      let h1 := updateHeader (updateHeader headers "origin" t.origin)
        "referer" t.referer
      let h2 := match t.userAgent with
        | some ua => updateHeader h1 "user-agent" ua
        | none => h1
      assignHeaders h2 t.additionalHeaders
  updateHeader headers "host" url.host

/-- None of the registered templates supplies `origin`, `referer`,
`user-agent` or `host` through `additionalHeaders`. -/
def templateExtrasSafe (t : DomainTemplate) : Bool :=
  (headerLookupLast t.additionalHeaders "origin").isNone &&
  (headerLookupLast t.additionalHeaders "referer").isNone &&
  (headerLookupLast t.additionalHeaders "user-agent").isNone



/-! ## URL resolution and percent-encoding

`processM3u8` resolves relative playlist references with the WHATWG
`URL` constructor (`new URL(rel, basePath)`) and percent-encodes the
result with `encodeURIComponent`.  The following definitions model that
behaviour for http(s) base URLs. -/

/-- Scheme characters after the first (`ALPHA *( ALPHA / DIGIT / "+" / "-" / "." )`). -/
def isSchemeChar (c : Char) : Bool :=
  c.isAlphanum || c == '+' || c == '-' || c == '.'

/-- Parse a leading `scheme:`; returns the lowercased scheme (without
the colon) and the remainder. -/
def parseScheme (s : List Char) : Option (List Char × List Char) :=
  match s with
  | [] => none
  | c :: rest =>
    if c.isAlpha then
      let body := rest.takeWhile isSchemeChar
      match rest.drop body.length with
      | ':' :: tail => some (lowerStr (c :: body), tail)
      | _ => none
    else none

/-- Models `new URL(u)` succeeding, returning `url.protocol` (scheme with
trailing colon): any `scheme:` string is accepted, except that the
special schemes http/https additionally require `//` and a nonempty
host. -/
def parseUrlProtocol (s : List Char) : Option (List Char) :=
  match parseScheme s with
  | none => none
  | some (sch, rest) =>
    if sch == "http".data || sch == "https".data then
      if lstarts "//".data rest &&
         !((rest.drop 2).takeWhile (fun c => !(c == '/' || c == '?' || c == '#'))).isEmpty
      then some (sch ++ [':'])
      else none
    else some (sch ++ [':'])

/-- Parse an http(s) base URL into scheme (no colon), host (authority)
and the path-query-fragment remainder; fails when the base is not a
usable http(s) URL (e.g. `https://` with empty host), in which case
`new URL(rel, base)` throws. -/
def parseHttpBase (base : List Char) : Option (List Char × List Char × List Char) :=
  match parseScheme base with
  | none => none
  | some (sch, rest) =>
    if (sch == "http".data || sch == "https".data) && lstarts "//".data rest then
      let afterSS := rest.drop 2
      let host := afterSS.takeWhile fun c => !(c == '/' || c == '?' || c == '#')
      if host.isEmpty then none
      else some (sch, host, afterSS.drop host.length)
    else none

/-- WHATWG URL parsing removes ASCII tab and newline characters from the
input. -/
def stripTabNl (s : List Char) : List Char :=
  s.filter fun c => !(c == '\t' || c == '\n' || c == '\r')

/-- WHATWG URL parsing strips leading and trailing C0-control-or-space. -/
def trimC0Space (s : List Char) : List Char :=
  ((s.dropWhile fun c => c.toNat ≤ 32).reverse.dropWhile fun c => c.toNat ≤ 32).reverse

def splitOnSlash : List Char → List (List Char)
  | [] => [[]]
  | c :: rest =>
    if c = '/' then [] :: splitOnSlash rest
    else match splitOnSlash rest with
      | [] => [[c]]
      | l :: ls => (c :: l) :: ls

def joinSlash : List (List Char) → List Char
  | [] => []
  | [l] => l
  | l :: ls => l ++ '/' :: joinSlash ls

/-- One step of dot-segment removal: `.` is dropped, `..` pops (but not
above the root), anything else is appended. -/
def dotSegStep (acc : List (List Char)) (seg : List Char) : List (List Char) :=
  if seg = ['.'] then acc
  else if seg = ['.', '.'] then
    if acc.length ≤ 1 then acc else acc.dropLast
  else acc ++ [seg]

/-- Remove dot segments from an absolute path (standard relative-URL
resolution semantics); a trailing `.` or `..` leaves a trailing slash. -/
def removeDotSegmentsL (p : List Char) : List Char :=
  let segs := splitOnSlash p
  let folded := segs.foldl dotSegStep []
  let folded :=
    match segs.getLast? with
    | some lastSeg =>
      if lastSeg = ['.'] || lastSeg = ['.', '.'] then folded ++ [[]] else folded
    | none => folded
  joinSlash folded

/-- Everything up to and including the last `/` (empty if there is no
slash); also the JS idiom `s.substring(0, s.lastIndexOf('/') + 1)`. -/
def takeToLastSlash (s : List Char) : List Char :=
  (s.reverse.dropWhile fun c => c != '/').reverse

/-- Models `new URL(rel, base).toString()` for an http(s) `base`:
scheme-carrying references are used as-is, protocol-relative ones get the
base's scheme, rooted/relative paths are resolved against the base's
origin and directory with dot-segment removal, and query/fragment-only
references replace the base's query/fragment. -/
def resolveRel (rel base : List Char) : Option (List Char) :=
  match parseHttpBase base with
  | none => none
  | some (sch, host, pRest) =>
    let origin := sch ++ ':' :: '/' :: '/' :: host
    let basePath0 := pRest.takeWhile fun c => !(c == '?' || c == '#')
    let basePath := if basePath0.isEmpty then ['/'] else basePath0
    let r := stripTabNl (trimC0Space rel)
    if r.isEmpty then some (base.takeWhile fun c => c != '#')
    else if (parseScheme r).isSome then some r
    else if lstarts "//".data r then some (sch ++ ':' :: r)
    else if lstarts "/".data r then
      let p := r.takeWhile fun c => !(c == '?' || c == '#')
      some (origin ++ removeDotSegmentsL p ++ r.drop p.length)
    else if lstarts "?".data r then some (origin ++ basePath ++ r)
    else if lstarts "#".data r then some ((base.takeWhile fun c => c != '#') ++ r)
    else
      let dir := takeToLastSlash basePath
      let p := r.takeWhile fun c => !(c == '?' || c == '#')
      some (origin ++ removeDotSegmentsL (dir ++ p) ++ r.drop p.length)

/-- The characters `encodeURIComponent` leaves unescaped:
`A-Z a-z 0-9 - _ . ! ~ * ' ( )`. -/
def isUnreservedChar (c : Char) : Bool :=
  c.isAlphanum || c == '-' || c == '_' || c == '.' || c == '!' ||
  c == '~' || c == '*' || c == Char.ofNat 39 || c == '(' || c == ')'

/-- Uppercase hexadecimal digit for `n < 16`. -/
def hexDigitChar (n : Nat) : Char :=
  if n < 10 then Char.ofNat (48 + n) else Char.ofNat (55 + n)

/-- UTF-8 encoding of a code point. -/
def utf8Bytes (n : Nat) : List Nat :=
  if n < 0x80 then [n]
  else if n < 0x800 then [0xC0 + n / 64, 0x80 + n % 64]
  else if n < 0x10000 then [0xE0 + n / 4096, 0x80 + n / 64 % 64, 0x80 + n % 64]
  else [0xF0 + n / 262144, 0x80 + n / 4096 % 64, 0x80 + n / 64 % 64, 0x80 + n % 64]

/-- `encodeURIComponent` on a single character. -/
def encChar (c : Char) : List Char :=
  if isUnreservedChar c then [c]
  else (utf8Bytes c.toNat).foldr
    (fun b acc => '%' :: hexDigitChar (b / 16) :: hexDigitChar (b % 16) :: acc) []

/-- JS `encodeURIComponent`. -/
def encodeURIComponent (s : List Char) : List Char :=
  (s.map encChar).flatten

/-! ## proxy.ts : processM3u8 and friends -/

/-- The literal `URI="` that `processM3u8` searches directive lines for. -/
def uriAttr : List Char := "URI=\"".data

/-- The value part matched by `/URI="([^"]+)"/`: a maximal nonempty run
of non-quote characters terminated by a quote. -/
def takeNotQuote (s : List Char) : List Char := s.takeWhile fun c => c != '"'

/-- `line.matchAll(/URI="([^"]+)"/g)`, returning the captured values in
order: scan left to right; at an occurrence of `URI="` with a nonempty
quote-terminated value, record the value and continue after its closing
quote; otherwise advance one character.  The fuel argument (list length)
makes the recursion structural. -/
def matchAllURIAux : Nat → List Char → List (List Char)
  | 0, _ => []
  | _ + 1, [] => []
  | fuel + 1, s@(_ :: cs) =>
    if lstarts uriAttr s then
      let rest := s.drop 5
      let v := takeNotQuote rest
      if !v.isEmpty && v.length < rest.length then
        v :: matchAllURIAux fuel (rest.drop (v.length + 1))
      else matchAllURIAux fuel cs
    else matchAllURIAux fuel cs

def matchAllURI (s : List Char) : List (List Char) :=
  matchAllURIAux (s.length + 1) s

/-- The ECMAScript GetSubstitution template expansion applied to the
replacement string of a string-pattern replace: a dollar sign followed
by another dollar sign yields one dollar sign; followed by an ampersand
it yields the matched substring; followed by a backquote (code 96) the
text preceding the match; followed by a straight quote (code 39) the
text following the match; any other dollar sequence (including digit
references, which have no captures for a string pattern) is kept
literally. -/
def getSubstitution (matched pre post : List Char) : List Char → List Char
  | [] => []
  | [c] => [c]
  | c :: d :: rest =>
    if c = '$' then
      if d = '$' then '$' :: getSubstitution matched pre post rest
      else if d = '&' then matched ++ getSubstitution matched pre post rest
      else if d = Char.ofNat 96 then pre ++ getSubstitution matched pre post rest
      else if d = Char.ofNat 39 then post ++ getSubstitution matched pre post rest
      else c :: getSubstitution matched pre post (d :: rest)
    else c :: getSubstitution matched pre post (d :: rest)

/-- JS `String.prototype.replace` with a string pattern: replace the
first occurrence only, expanding dollar escapes in the replacement via
`getSubstitution`.  The `pre` accumulator carries the part of the
original string before the current scan position. -/
def replaceFirstFrom (pat repl : List Char) : List Char → List Char → List Char
  | pre, [] => if pat.isEmpty then getSubstitution pat pre [] repl else []
  | pre, c :: cs =>
    if lstarts pat (c :: cs) then
      getSubstitution pat pre ((c :: cs).drop pat.length) repl ++
        (c :: cs).drop pat.length
    else c :: replaceFirstFrom pat repl (pre ++ [c]) cs

def replaceFirst (s pat repl : List Char) : List Char :=
  replaceFirstFrom pat repl [] s

/-- The per-reference resolution of `processM3u8`: absolute http(s) URLs
are used as-is, protocol-relative ones get the source's protocol, and
anything else is resolved against the base path with `new URL`. -/
def resolveRef (protocol basePath r : List Char) : Option (List Char) :=
  if lstarts "http://".data r || lstarts "https://".data r then some r
  else if lstarts "//".data r then some (protocol ++ r)
  else resolveRel r basePath

/-- `proxyUrl + "?url=" + encodeURIComponent(absoluteUrl)`. -/
def proxify (proxyU abs : List Char) : List Char :=
  proxyU ++ "?url=".data ++ encodeURIComponent abs

/-- The literal `URI="<v>"` used in the replacement. -/
def uriPat (v : List Char) : List Char := uriAttr ++ v ++ ['"']

/-- The directive-line loop of `processM3u8` (src/proxy.ts:136-183):
for each matched `URI="..."` value, skip it if already proxied, else
resolve it and substitute the proxied URL for the first occurrence of
the original attribute; resolution failures leave the line as-is. -/
def processedDirective (protocol basePath proxyU line : List Char) : List Char :=
  (matchAllURI line).foldl
    (fun acc v =>
      if lstarts proxyU v then acc
      else
        match resolveRef protocol basePath v with
        | some abs => replaceFirst acc (uriPat v) (uriPat (proxify proxyU abs))
        | none => acc)
    line

/-- One line of `processM3u8` (src/proxy.ts:130-232): directive lines
are rewritten only in their `URI="..."` attributes; nonblank non-directive
lines are treated as references and rewritten whole (unless already
proxied, or unresolvable); blank lines pass through. -/
def processLine (protocol basePath proxyU line : List Char) : List Char :=
  let t := jsTrim line
  if lstarts "#".data t then
    if containsSub uriAttr line then processedDirective protocol basePath proxyU line
    else line
  else if !t.isEmpty then
    if lstarts proxyU t then line
    else
      match resolveRef protocol basePath t with
      | some abs => proxify proxyU abs
      | none => line
  else line

/-- The base path computed by `processM3u8` (src/proxy.ts:121-126):
strip the final path component of a `.m3u8` URL
(`substring(0, lastIndexOf('/') + 1)`), else ensure a trailing slash. -/
def m3u8BasePath (baseUrl : List Char) : List Char :=
  if lends ".m3u8".data baseUrl then takeToLastSlash baseUrl
  else if lends "/".data baseUrl then baseUrl
  else baseUrl ++ ['/']

/-- `processM3u8` (src/proxy.ts:111-243) on char lists: validate the
source URL (a failure returns the content untouched), then process line
by line against the computed base path and join with `\n`. -/
def processM3u8L (content baseUrl proxyU : List Char) : List Char :=
  match parseUrlProtocol baseUrl with
  | none => content
  | some protocol =>
    joinLF ((splitLines content).map
      (processLine protocol (m3u8BasePath baseUrl) proxyU))

/-- `processM3u8` on strings. -/
def processM3u8 (content baseUrl proxyUrl : String) : String :=
  String.mk (processM3u8L content.data baseUrl.data proxyUrl.data)

/-- `isM3u8Url` (src/proxy.ts:248). -/
def isM3u8Url (url : String) : Bool :=
  lends ".m3u8".data (lowerStr url.data) ||
  containsSub ".m3u8?".data (lowerStr url.data)

/-- `isM3u8ContentType` (src/proxy.ts:256). -/
def isM3u8ContentType (contentType : String) : Bool :=
  containsSub "application/vnd.apple.mpegurl".data contentType.data ||
  containsSub "application/x-mpegurl".data contentType.data ||
  containsSub "audio/mpegurl".data contentType.data ||
  containsSub "audio/x-mpegurl".data contentType.data


/-! ## proxy.ts : decompression, and mime-types.ts : classification -/

/-- External decompression primitives; `none` models a thrown error. -/
structure Decompressors where
  gunzip : List Nat → Option (List Nat)
  inflate : List Nat → Option (List Nat)
  brotli : List Nat → Option (List Nat)
  zstd : List Nat → Option (List Nat)

/-- `decompressContent` (src/proxy.ts:266-304): dispatch on the
lowercased encoding; unknown encodings return the content unchanged; a
thrown decompression error is caught and the original content
returned. -/
def decompressContent (d : Decompressors) (content : List Nat)
    (encoding : Option String) : List Nat :=
  match encoding with
  | none => content
  | some e =>
    let el := String.mk (lowerStr e.data)
    if el = "gzip" then (d.gunzip content).getD content
    else if el = "deflate" then (d.inflate content).getD content
    else if el = "br" then (d.brotli content).getD content
    else if el = "zstd" || el = "zst" then (d.zstd content).getD content
    else content

/-- The content-encoding slice of the /proxy handler (src/index.ts:
153-183 together with 229-233), for buffer content: decompress when a
content-encoding header is present (JS truthiness: non-empty), then
delete the content-encoding header if present before returning —
unconditionally, whether or not decompression succeeded. -/
def handleEncoding (d : Decompressors) (headers : String → Option String)
    (content : List Nat) : (List Nat) × (String → Option String) :=
  let content' :=
    match headers "content-encoding" with
    | some e => if e = "" then content else decompressContent d content (some e)
    | none => content
  let headers' :=
    match headers "content-encoding" with
    | some e =>
      if e = "" then headers
      else fun k => if k = "content-encoding" then none else headers k
    | none => headers
  (content', headers')

/-- Does `f` hold at some position (tail) of the list?  Models an
unanchored regex test. -/
def scanPos (f : List Char → Bool) : List Char → Bool
  | [] => f []
  | c :: cs => f (c :: cs) || scanPos f cs

/-- `/pat\d+/i`-style test at one position: the literal `pat` followed by
at least one digit. -/
def patThenDigitAt (pat : List Char) (s : List Char) : Bool :=
  lstarts pat s &&
    (match s.drop pat.length with
     | d :: _ => d.isDigit
     | [] => false)

def hasPatThenDigit (pat : List Char) (s : List Char) : Bool :=
  scanPos (patThenDigitAt pat) s

/-- The case-insensitive pattern `-v\d+-a\d+` at one position. -/
def vaPatAt (s : List Char) : Bool :=
  lstarts "-v".data s &&
    (let rest := s.drop 2
     let ds := rest.takeWhile Char.isDigit
     !ds.isEmpty &&
       (let rest2 := rest.drop ds.length
        lstarts "-a".data rest2 &&
          (match rest2.drop 2 with
           | d :: _ => d.isDigit
           | [] => false)))

/-- The case-insensitive pattern `-f\d+-v\d+-a\d+` at one position. -/
def fvaPatAt (s : List Char) : Bool :=
  lstarts "-f".data s &&
    (let rest := s.drop 2
     let ds := rest.takeWhile Char.isDigit
     !ds.isEmpty && vaPatAt (rest.drop ds.length))

/-- `/_\d+\.<ext>$/i`: ends with `_`, one or more digits, and the
extension. -/
def endsUnderscoreDigits (ext : List Char) (s : List Char) : Bool :=
  lends ext s &&
    (let core := s.take (s.length - ext.length)
     let ds := core.reverse.takeWhile Char.isDigit
     !ds.isEmpty && lends "_".data (core.take (core.length - ds.length)))

/-- `SEGMENT_PATTERNS.some(p => p.test(path))` (src/mime-types.ts:10-27);
the patterns are case-insensitive, so the test runs on the lowercased
path. -/
def segmentPatternsTest (path : String) : Bool :=
  let p := lowerStr path.data
  hasPatThenDigit "seg-".data p || hasPatThenDigit "segment-".data p ||
  hasPatThenDigit "chunk-".data p || hasPatThenDigit "frag-".data p ||
  hasPatThenDigit "part-".data p ||
  scanPos vaPatAt p || scanPos fvaPatAt p ||
  hasPatThenDigit "media-".data p || hasPatThenDigit "stream_".data p ||
  endsUnderscoreDigits ".ts".data p || endsUnderscoreDigits ".m4s".data p

/-- `isDisguisedSegment` (src/mime-types.ts:34-46). -/
def isDisguisedSegment (path : String) : Bool :=
  if path = "" then false
  else
    segmentPatternsTest path &&
      ([".js", ".jpg", ".jpeg", ".png", ".gif", ".css", ".html", ".txt",
        ".webp", ".ico"].any fun ext => lends ext.data (lowerStr path.data))

/-- `isTsSegment` (src/mime-types.ts:53-72). -/
def isTsSegment (path : String) : Bool :=
  if path = "" then false
  else
    let pl := lowerStr path.data
    lends ".ts".data pl || lends ".mts".data pl || lends ".m2ts".data pl ||
    lends ".mp2t".data pl || isDisguisedSegment path

/-- `isM3u8Playlist` (src/mime-types.ts:79-82). -/
def isM3u8Playlist (path : String) : Bool :=
  if path = "" then false
  else
    lends ".m3u8".data (lowerStr path.data) ||
    lends ".m3u".data (lowerStr path.data)

/-- `SUSPICIOUS_EXTENSIONS` and `hasSuspiciousExtension`
(src/mime-types.ts:124-136). -/
def hasSuspiciousExtension (path : String) : Bool :=
  [".js", ".jpg", ".jpeg", ".png", ".gif", ".css", ".html", ".txt",
   ".webp", ".ico", ".json", ".xml", ".svg", ".pdf", ".doc", ".docx"].any
    fun ext => lends ext.data (lowerStr path.data)

/-- `getStreamingContentType` (src/mime-types.ts:146-191).  The two
buffer-signature checks of the source (one gated on a suspicious
extension, one unconditional) both return `video/mp2t` exactly when
`detectTransportStream` fires, so they are merged here. -/
def getStreamingContentType (path : String) (buffer : Option (List Nat))
    (fallback : Option String) : String :=
  if path = "" then fallback.getD "application/octet-stream"
  else
    let m3u8Check :=
      isM3u8Playlist path &&
        (match buffer with
         | some b => decide (b.getD 0 0 = 0x23) && decide (b.getD 1 0 = 0x45)
         | none => true)
    if m3u8Check then "application/vnd.apple.mpegurl"
    else if (match buffer with
             | some b => detectTransportStream b
             | none => false) then "video/mp2t"
    else if isTsSegment path then "video/mp2t"
    else fallback.getD "application/octet-stream"

/-! ## index.ts : the /proxy handler -/

/-- The handler's content value: `string | Buffer`. -/
inductive HandlerContent
  | str (s : String)
  | buf (b : List Nat)
  deriving Repr, DecidableEq

/-- Byte-to-text decoding for the ASCII ranges the handler inspects
(models `buffer.toString('utf-8')` on ASCII bytes). -/
def bytesToChars (b : List Nat) : List Char := b.map Char.ofNat

/-- The actual-playlist-marker check (src/index.ts:204-211): the trimmed
text (first 100 bytes for buffers) must start with `#EXTM3U` or
`#EXT-X-`. -/
def isActuallyM3u8 (content : HandlerContent) : Bool :=
  match content with
  | .str s =>
    lstarts "#EXTM3U".data (jsTrim s.data) ||
    lstarts "#EXT-X-".data (jsTrim s.data)
  | .buf b =>
    if b.length > 0 then
      let firstBytes := bytesToChars (b.take (min 100 b.length))
      lstarts "#EXTM3U".data (jsTrim firstBytes) ||
      lstarts "#EXT-X-".data (jsTrim firstBytes)
    else false

/-- `typeof content === 'string' ? content : content.toString('utf-8')`. -/
def handlerText : HandlerContent → String
  | .str s => s
  | .buf b => String.mk (bytesToChars b)

/-- The conditional-rewrite stage of the /proxy handler
(src/index.ts:199-220): the rewriter runs iff the URL or the (already
classified) content type looks like M3U8 AND the content actually starts
with a playlist marker; only then are the content replaced by the
rewritten playlist and the content type forced to the playlist media
type.  The boolean records whether the rewrite branch ran. -/
def rewriteStage (targetUrl : String) (content : HandlerContent)
    (contentType : String) : HandlerContent × String × Bool :=
  let isM3u8 := isM3u8Url targetUrl || isM3u8ContentType contentType
  if isM3u8 && isActuallyM3u8 content then
    (HandlerContent.str (processM3u8 (handlerText content) targetUrl "/proxy"),
     "application/vnd.apple.mpegurl", true)
  else (content, contentType, false)

/-- The fetch result consumed by the handler (`proxyUrl`'s resolved
value). -/
structure ProxyResultM where
  content : HandlerContent
  contentType : String
  headers : String → Option String

/-- The handler's terminal outcome. -/
inductive HandlerOutcome
  | clientError
  | cacheHit (content : HandlerContent) (contentType : String)
  | ok (content : HandlerContent) (contentType : String)
  | serverError
  deriving Repr, DecidableEq

/-- The post-fetch processing of the handler (src/index.ts:153-220):
decompression (buffers only, gated on a truthy content-encoding header),
classification by `getStreamingContentType`, then the conditional
rewrite; returns the final (content, contentType) pair. -/
def processFetched (targetUrl : String) (r : ProxyResultM)
    (d : Decompressors) : HandlerContent × String :=
  let content1 :=
    match r.content with
    | .buf b =>
      HandlerContent.buf
        (match r.headers "content-encoding" with
         | some e => if e = "" then b else decompressContent d b (some e)
         | none => b)
    | .str s => .str s
  let buffer : Option (List Nat) :=
    match content1 with
    | .buf b => some b
    | .str s => some (s.data.map Char.toNat)
  let ct1 := getStreamingContentType targetUrl buffer (some r.contentType)
  let res := rewriteStage targetUrl content1 ct1
  (res.1, res.2.1)

/-- The /proxy handler (src/index.ts:117-256), with the origin fetch as
an oracle (`none` models a thrown fetch error such as a timeout): URL
validation, cache lookup, fetch, post-fetch processing, then — only
after all of these — the cache write. -/
def handleProxy (cache : SimpleCache HandlerContent) (now : Nat)
    (targetUrl : String) (fetch : Option ProxyResultM) (d : Decompressors)
    (cacheTtl : Nat) : HandlerOutcome × SimpleCache HandlerContent :=
  if (parseUrlProtocol targetUrl.data).isNone then (.clientError, cache)
  else
    match cacheGet cache targetUrl now with
    | (some hit, c1) => (.cacheHit hit.1 hit.2, c1)
    | (none, c1) =>
      match fetch with
      | none => (.serverError, c1)
      | some r =>
        let res := processFetched targetUrl r d
        (.ok res.1 res.2, cacheSet c1 targetUrl res.1 res.2 cacheTtl now)

/-- Decompressors that always fail. -/
def failingDecompressors : Decompressors :=
  { gunzip := fun _ => none, inflate := fun _ => none,
    brotli := fun _ => none, zstd := fun _ => none }


/-- A long-expired cache entry (for the failed-request counterexample). -/
def expiredEntry : CacheEntry HandlerContent :=
  { content := HandlerContent.str "old", contentType := "text/plain",
    timestamp := 0, ttl := 1 }

/-- A one-entry cache whose entry is long expired. -/
def expiredCache : SimpleCache HandlerContent :=
  { entries := [("https://a/x", expiredEntry)], defaultTtl := 300 }


/-! ## Structural view of the directive-line scan (for the idempotence
analysis of `processM3u8`) -/

/-- Does a match of `/URI="([^"]+)"/` start at the head of `s`? -/
def matchesAt (s : List Char) : Bool :=
  lstarts uriAttr s &&
    (let v := takeNotQuote (s.drop 5)
     !v.isEmpty && decide (v.length < (s.drop 5).length))

/-- The value captured by a match starting at the head of `s`. -/
def valueAt (s : List Char) : List Char := takeNotQuote (s.drop 5)

/-- How the directive loop rewrites one matched value: skip it when
already proxied, proxify it when it resolves, keep it otherwise. -/
def transformVal (protocol basePath proxyU v : List Char) : List Char :=
  if lstarts proxyU v then v
  else
    match resolveRef protocol basePath v with
    | some abs => proxify proxyU abs
    | none => v

/-- A value the directive loop leaves alone: already proxied or
unresolvable. -/
def skipOrFail (protocol basePath proxyU v : List Char) : Prop :=
  lstarts proxyU v = true ∨ resolveRef protocol basePath v = none

/-- The structural rewrite of a directive line: scan left to right,
rewriting each match in place (the same scan `matchAllURI` performs). -/
def rewriteScanAux (protocol basePath proxyU : List Char) :
    Nat → List Char → List Char
  | 0, s => s
  | _ + 1, [] => []
  | fuel + 1, s@(c :: cs) =>
    if matchesAt s then
      uriPat (transformVal protocol basePath proxyU (valueAt s)) ++
        rewriteScanAux protocol basePath proxyU fuel
          (s.drop (5 + (valueAt s).length + 1))
    else c :: rewriteScanAux protocol basePath proxyU fuel cs

def rewriteScan (protocol basePath proxyU s : List Char) : List Char :=
  rewriteScanAux protocol basePath proxyU (s.length + 1) s

/-- The decomposition of a line as seen by the `URI="..."` scan: a gap in
which no match starts (relative to what follows), then a match
`URI="<v>"` with a nonempty quote-free value, then the rest; or a line
with no match anywhere. -/
inductive UriScan : List Char → List (List Char) → Prop
  | nil (s : List Char)
      (h : ∀ s₁ s₂ : List Char, s = s₁ ++ s₂ → matchesAt s₂ = false) :
      UriScan s []
  | cons (g v rest : List Char) (vs : List (List Char))
      (hg : ∀ g₁ g₂ : List Char, g = g₁ ++ g₂ → g₂ ≠ [] →
        matchesAt (g₂ ++ uriPat v ++ rest) = false)
      (hv : v ≠ [] ∧ ∀ c ∈ v, c ≠ '"')
      (hrest : UriScan rest vs) :
      UriScan (g ++ uriPat v ++ rest) (v :: vs)

/-- The prefix invariant maintained by the directive fold: any match
starting inside the already-processed prefix `A` (with the unprocessed
continuation `z`) captures a value the loop leaves alone. -/
def cleanPre (protocol basePath proxyU A z : List Char) : Prop :=
  ∀ A₁ A₂ : List Char, A = A₁ ++ A₂ → A₂ ≠ [] → matchesAt (A₂ ++ z) = true →
    skipOrFail protocol basePath proxyU (valueAt (A₂ ++ z))


/-- The characters that can appear in `encodeURIComponent` output:
unreserved characters and the percent sign (hex digits are
alphanumeric). -/
def encSafeChar (c : Char) : Bool := isUnreservedChar c || c == '%'

/-! ### Association-list lemmas for the cache -/

theorem assocKeys_nil : assocKeys ([] : List (String × CacheEntry α)) = [] := rfl

theorem assocKeys_cons (hd : String × CacheEntry α) (tl : List (String × CacheEntry α)) :
    assocKeys (hd :: tl) = hd.1 :: assocKeys tl := rfl

theorem lookupAssoc_setAssoc_self (k : String) (v : CacheEntry α)
    (l : List (String × CacheEntry α)) :
    lookupAssoc k (setAssoc k v l) = some v := by
  induction l with
  | nil => simp [setAssoc, lookupAssoc]
  | cons hd tl ih =>
    by_cases h : hd.1 = k
    · simp [setAssoc, h, lookupAssoc]
    · simpa [setAssoc, h, lookupAssoc] using ih

theorem lookupAssoc_eq_none_of_not_mem (k : String)
    (l : List (String × CacheEntry α)) (h : k ∉ assocKeys l) :
    lookupAssoc k l = none := by
  induction l with
  | nil => rfl
  | cons hd tl ih =>
    rw [assocKeys_cons] at h
    have h1 : ¬ hd.1 = k := fun he => h (by rw [he]; exact List.mem_cons_self _ _)
    have h2 : k ∉ assocKeys tl := fun hm => h (List.mem_cons_of_mem _ hm)
    rw [lookupAssoc, if_neg h1]
    exact ih h2

theorem assocKeys_setAssoc (k : String) (v : CacheEntry α)
    (l : List (String × CacheEntry α)) :
    assocKeys (setAssoc k v l) =
      if k ∈ assocKeys l then assocKeys l else assocKeys l ++ [k] := by
  induction l with
  | nil => simp [setAssoc, assocKeys]
  | cons hd tl ih =>
    by_cases h : hd.1 = k
    · rw [setAssoc, if_pos h, assocKeys_cons, assocKeys_cons,
        if_pos (by rw [h]; exact List.mem_cons_self _ _)]
      rw [h]
    · have hne : ¬ k = hd.1 := fun hc => h hc.symm
      rw [setAssoc, if_neg h, assocKeys_cons, assocKeys_cons, ih]
      by_cases hmem : k ∈ assocKeys tl
      · rw [if_pos hmem, if_pos (List.mem_cons_of_mem _ hmem)]
      · rw [if_neg hmem, if_neg (by
          intro hc
          rcases List.mem_cons.mp hc with hc | hc
          · exact hne hc
          · exact hmem hc)]
        rfl

theorem nodup_setAssoc (k : String) (v : CacheEntry α)
    (l : List (String × CacheEntry α)) (h : (assocKeys l).Nodup) :
    (assocKeys (setAssoc k v l)).Nodup := by
  rw [assocKeys_setAssoc]
  by_cases hmem : k ∈ assocKeys l
  · rwa [if_pos hmem]
  · rw [if_neg hmem]
    refine List.Nodup.append h (List.nodup_singleton k) ?_
    intro a ha hb
    rw [List.mem_singleton] at hb
    exact hmem (hb ▸ ha)

theorem lookupAssoc_eraseAssoc_self (k : String)
    (l : List (String × CacheEntry α)) (h : (assocKeys l).Nodup) :
    lookupAssoc k (eraseAssoc k l) = none := by
  induction l with
  | nil => rfl
  | cons hd tl ih =>
    rw [assocKeys_cons, List.nodup_cons] at h
    by_cases hk : hd.1 = k
    · rw [eraseAssoc, if_pos hk]
      exact lookupAssoc_eq_none_of_not_mem _ _ (hk ▸ h.1)
    · rw [eraseAssoc, if_neg hk, lookupAssoc, if_neg hk]
      exact ih h.2

theorem length_eraseAssoc_of_mem (k : String)
    (l : List (String × CacheEntry α)) (h : k ∈ assocKeys l) :
    (eraseAssoc k l).length + 1 = l.length := by
  induction l with
  | nil => simp [assocKeys] at h
  | cons hd tl ih =>
    by_cases hk : hd.1 = k
    · simp [eraseAssoc, hk]
    · rw [assocKeys_cons] at h
      rcases List.mem_cons.mp h with hc | hc
      · exact absurd hc.symm hk
      · rw [eraseAssoc, if_neg hk, List.length_cons, List.length_cons,
          ← ih hc]

theorem mem_assocKeys_setAssoc_self (k : String) (v : CacheEntry α)
    (l : List (String × CacheEntry α)) :
    k ∈ assocKeys (setAssoc k v l) := by
  rw [assocKeys_setAssoc]
  by_cases hmem : k ∈ assocKeys l
  · rwa [if_pos hmem]
  · rw [if_neg hmem]
    exact List.mem_append_right _ (List.mem_singleton_self k)

/-! ## Claim C2: transport-stream detection -/

/-- **C2.** `detectTransportStream b` is true iff `b` has length at least
188, byte 0 equals `0x47`, and at least one in-bounds offset among
`{188, 376, 564, 752, 940}` also equals `0x47`; in particular every
buffer of length ≥ 376 with `0x47` at offsets 0 and 188 is detected, and
a buffer with no `0x47` at any of the in-bounds stride offsets is not. -/
theorem detectTransportStream_spec :
    (∀ b : List Nat, detectTransportStream b = true ↔
       (188 ≤ b.length ∧ b.getD 0 0 = 0x47 ∧
        ∃ off ∈ tsOffsets, off < b.length ∧ b.getD off 0 = 0x47)) ∧
    (∀ b : List Nat, 376 ≤ b.length → b.getD 0 0 = 0x47 →
       b.getD 188 0 = 0x47 → detectTransportStream b = true) ∧
    (∀ b : List Nat,
       (∀ off ∈ tsOffsets, off < b.length → b.getD off 0 ≠ 0x47) →
       detectTransportStream b = false) := by
  have main : ∀ b : List Nat, detectTransportStream b = true ↔
      (188 ≤ b.length ∧ b.getD 0 0 = 0x47 ∧
       ∃ off ∈ tsOffsets, off < b.length ∧ b.getD off 0 = 0x47) := by
    intro b
    unfold detectTransportStream
    split_ifs with h1 h2
    · constructor
      · intro h; exact absurd h (by simp)
      · rintro ⟨hlen, -, -⟩; omega
    · constructor
      · intro h; exact absurd h (by simp)
      · rintro ⟨-, h0, -⟩
        exact absurd h0 (by simpa using h2)
    · have h0 : b.getD 0 0 = 0x47 := by
        by_contra hc
        exact h2 (by simpa using hc)
      simp only [decide_eq_true_eq]
      constructor
      · intro h
        have hcount : 0 < tsOffsets.countP
            (fun off => decide (off < b.length) && (b.getD off 0 == 0x47)) := by
          omega
        rcases List.countP_pos_iff.mp hcount with ⟨off, hmem, hoff⟩
        simp only [Bool.and_eq_true, decide_eq_true_eq, beq_iff_eq] at hoff
        exact ⟨by omega, h0, off, hmem, hoff.1, hoff.2⟩
      · rintro ⟨-, -, off, hmem, hlt, hval⟩
        have hcount : 0 < tsOffsets.countP
            (fun off => decide (off < b.length) && (b.getD off 0 == 0x47)) :=
          List.countP_pos_iff.mpr ⟨off, hmem, by
            simp only [Bool.and_eq_true, decide_eq_true_eq, beq_iff_eq]
            exact ⟨hlt, hval⟩⟩
        omega
  refine ⟨main, ?_, ?_⟩
  · intro b hlen h0 h188
    exact (main b).mpr ⟨by omega, h0, 188, by simp [tsOffsets], by omega, h188⟩
  · intro b h
    by_contra hc
    rw [Bool.not_eq_false] at hc
    rcases ((main b).mp hc).2.2 with ⟨off, hmem, hlt, hval⟩
    exact h off hmem hlt hval

set_option maxRecDepth 4000 in
/-- Witness for C2 at a concrete buffer: 376 bytes of `0x47`. -/
theorem detectTransportStream_spec_witness :
    detectTransportStream (List.replicate 376 0x47) = true :=
  detectTransportStream_spec.2.1 (List.replicate 376 0x47)
    (by decide) (by decide) (by decide)

/-! ## Claim C4: cache TTL semantics -/

/-- **C4 counterexample.**  The claim fails for `ttl = 0`: `set` stores
`ttl || defaultTtl`, and `0` is falsy in JS, so the entry gets the
default TTL of 300 s.  A `get` five seconds later — an age strictly
exceeding the requested TTL of 0 — still returns the value instead of
deleting the entry and returning none. -/
theorem cacheGet_ttl_zero_counterexample :
    (1000 * 0 < 5000 - 0) ∧
    (cacheGet (cacheSet (⟨[], defaultCacheTtl⟩ : SimpleCache Nat)
        "k" 7 "video/mp2t" 0 0) "k" 5000).1 = some (7, "video/mp2t") := by
  constructor
  · omega
  · rfl

/-- **C4 (amended).**  For every `ttl > 0` (a `ttl` of 0 falls back to the
default TTL): a `get` while the age is at most `ttl` returns the stored
`(content, contentType)`; a `get` once the age strictly exceeds `ttl`
returns none, deletes the entry, and the subsequent `stats` count drops
by one; and the periodic sweep retains exactly the entries whose age does
not exceed their TTL. -/
theorem cache_ttl_spec :
    (∀ (α : Type) (c : SimpleCache α) (k : String) (v : α) (ty : String)
       (ttl tset now : Nat), 0 < ttl → now - tset ≤ 1000 * ttl →
       (cacheGet (cacheSet c k v ty ttl tset) k now).1 = some (v, ty)) ∧
    (∀ (α : Type) (c : SimpleCache α) (k : String) (v : α) (ty : String)
       (ttl tset now : Nat), 0 < ttl → 1000 * ttl < now - tset →
       (assocKeys c.entries).Nodup →
       (cacheGet (cacheSet c k v ty ttl tset) k now).1 = none ∧
       lookupAssoc k (cacheGet (cacheSet c k v ty ttl tset) k now).2.entries = none ∧
       (cacheStats (cacheGet (cacheSet c k v ty ttl tset) k now).2).1 + 1 =
         (cacheStats (cacheSet c k v ty ttl tset)).1) ∧
    (∀ (α : Type) (c : SimpleCache α) (now : Nat) (kv : String × CacheEntry α),
       kv ∈ (cacheCleanup c now).entries ↔
         kv ∈ c.entries ∧ ¬ 1000 * kv.2.ttl < now - kv.2.timestamp) := by
  have hset : ∀ (α : Type) (c : SimpleCache α) k (v : α) ty ttl tset,
      0 < ttl →
      lookupAssoc k (cacheSet c k v ty ttl tset).entries =
        some { content := v, contentType := ty, timestamp := tset, ttl := ttl } := by
    intro α c k v ty ttl tset httl
    unfold cacheSet
    simp only
    rw [lookupAssoc_setAssoc_self]
    have : ¬ ttl = 0 := by omega
    simp [this]
  refine ⟨?_, ?_, ?_⟩
  · intro α c k v ty ttl tset now httl hage
    have hexp : entryExpired
        { content := v, contentType := ty, timestamp := tset, ttl := ttl }
        now = false := by
      unfold entryExpired
      simp only [decide_eq_false_iff_not]
      omega
    simp [cacheGet, hset α c k v ty ttl tset httl, hexp]
  · intro α c k v ty ttl tset now httl hage hnodup
    have hexp : entryExpired
        { content := v, contentType := ty, timestamp := tset, ttl := ttl }
        now = true := by
      unfold entryExpired
      simpa using hage
    have hnodup' : (assocKeys (cacheSet c k v ty ttl tset).entries).Nodup :=
      nodup_setAssoc _ _ _ hnodup
    have hmem : k ∈ assocKeys (cacheSet c k v ty ttl tset).entries :=
      mem_assocKeys_setAssoc_self _ _ _
    refine ⟨?_, ?_, ?_⟩
    · simp [cacheGet, hset α c k v ty ttl tset httl, hexp]
    · simp only [cacheGet, hset α c k v ty ttl tset httl, hexp, if_true]
      exact lookupAssoc_eraseAssoc_self _ _ hnodup'
    · simp only [cacheGet, hset α c k v ty ttl tset httl, hexp, if_true,
        cacheStats]
      exact length_eraseAssoc_of_mem _ _ hmem
  · intro α c now kv
    unfold cacheCleanup
    simp [entryExpired, List.mem_filter]

/-! ### Header lemmas -/

theorem assignHeaders_eval (l : List (String × String))
    (h : String → Option String) (k : String) :
    assignHeaders h l k =
      match headerLookupLast l k with
      | some v => some v
      | none => h k := by
  induction l generalizing h with
  | nil => rfl
  | cons hd tl ih =>
    show assignHeaders (updateHeader h hd.1 hd.2) tl k = _
    rw [ih]
    show _ = (match (match headerLookupLast tl k with
        | some v => some v
        | none => if hd.1 = k then some hd.2 else none) with
      | some v => some v
      | none => h k)
    cases headerLookupLast tl k with
    | some v => rfl
    | none =>
      by_cases hk : hd.1 = k
      · simp [updateHeader, hk]
      · have hk' : ¬ k = hd.1 := fun hc => hk hc.symm
        simp [updateHeader, hk, hk']

theorem assignHeaders_not_mem (l : List (String × String))
    (h : String → Option String) (k : String)
    (hk : headerLookupLast l k = none) :
    assignHeaders h l k = h k := by
  rw [assignHeaders_eval, hk]

theorem updateHeader_same (h : String → Option String) (k v : String) :
    updateHeader h k v k = some v := by
  simp [updateHeader]

theorem updateHeader_other (h : String → Option String) (k v k' : String)
    (hne : k' ≠ k) : updateHeader h k v k' = h k' := by
  simp [updateHeader, hne]

theorem domainTemplates_extras_safe :
    domainTemplates.all templateExtrasSafe = true := by rfl

/-- **C6.**  For every URL whose hostname matches a registered template,
`generateHeaders` yields the template's `origin` and `referer`, the
template's user agent if specified (else the default), the merged
additional headers (template keys winning except `host`), and `host`
equal to the URL's authority; with no matching template, the result is
the default header set plus `host` only. -/
theorem generateHeaders_spec :
    (∀ (url : UrlParts) (t : DomainTemplate),
       findDomainTemplate domainTemplates url.hostname = some t →
       (generateHeaders domainTemplates url "origin" = some t.origin ∧
        generateHeaders domainTemplates url "referer" = some t.referer ∧
        generateHeaders domainTemplates url "user-agent" =
          some (t.userAgent.getD DEFAULT_USER_AGENT) ∧
        generateHeaders domainTemplates url "host" = some url.host ∧
        (∀ k v, headerLookupLast t.additionalHeaders k = some v → k ≠ "host" →
           generateHeaders domainTemplates url k = some v))) ∧
    (∀ url : UrlParts,
       findDomainTemplate domainTemplates url.hostname = none →
       ∀ k, generateHeaders domainTemplates url k =
         if k = "host" then some url.host else baseHeaders k) := by
  constructor
  · intro url t hfind
    have ht : t ∈ domainTemplates := List.mem_of_find?_eq_some hfind
    have hsafe := List.all_eq_true.mp domainTemplates_extras_safe t ht
    simp only [templateExtrasSafe, Bool.and_eq_true,
      Option.isNone_iff_eq_none] at hsafe
    obtain ⟨⟨hso, hsr⟩, hsu⟩ := hsafe
    cases hua : t.userAgent with
    | none =>
      have hbody : generateHeaders domainTemplates url =
          updateHeader (assignHeaders (updateHeader (updateHeader baseHeaders
            "origin" t.origin) "referer" t.referer) t.additionalHeaders)
            "host" url.host := by
        simp only [generateHeaders, hfind, hua]
      refine ⟨?_, ?_, ?_, ?_, ?_⟩
      · rw [hbody, updateHeader_other _ _ _ _ (by decide),
          assignHeaders_not_mem _ _ _ hso,
          updateHeader_other _ _ _ _ (by decide), updateHeader_same]
      · rw [hbody, updateHeader_other _ _ _ _ (by decide),
          assignHeaders_not_mem _ _ _ hsr, updateHeader_same]
      · rw [hbody, updateHeader_other _ _ _ _ (by decide),
          assignHeaders_not_mem _ _ _ hsu,
          updateHeader_other _ _ _ _ (by decide),
          updateHeader_other _ _ _ _ (by decide)]
        rfl
      · rw [hbody, updateHeader_same]
      · intro k v hk hkh
        rw [hbody, updateHeader_other _ _ _ _ hkh, assignHeaders_eval, hk]
    | some ua =>
      have hbody : generateHeaders domainTemplates url =
          updateHeader (assignHeaders (updateHeader (updateHeader (updateHeader
            baseHeaders "origin" t.origin) "referer" t.referer)
            "user-agent" ua) t.additionalHeaders) "host" url.host := by
        simp only [generateHeaders, hfind, hua]
      refine ⟨?_, ?_, ?_, ?_, ?_⟩
      · rw [hbody, updateHeader_other _ _ _ _ (by decide),
          assignHeaders_not_mem _ _ _ hso,
          updateHeader_other _ _ _ _ (by decide),
          updateHeader_other _ _ _ _ (by decide), updateHeader_same]
      · rw [hbody, updateHeader_other _ _ _ _ (by decide),
          assignHeaders_not_mem _ _ _ hsr,
          updateHeader_other _ _ _ _ (by decide), updateHeader_same]
      · rw [hbody, updateHeader_other _ _ _ _ (by decide),
          assignHeaders_not_mem _ _ _ hsu, updateHeader_same]
        rfl
      · rw [hbody, updateHeader_same]
      · intro k v hk hkh
        rw [hbody, updateHeader_other _ _ _ _ hkh, assignHeaders_eval, hk]
  · intro url hfind k
    simp only [generateHeaders, hfind, updateHeader]

/-- Witness for C6 at concrete URLs: a matching hostname
(`x.padorupado.ru`, first registered template) and a non-matching one
(`example.com`). -/
theorem generateHeaders_spec_witness :
    (∃ t, findDomainTemplate domainTemplates "x.padorupado.ru" = some t ∧
       generateHeaders domainTemplates ⟨"x.padorupado.ru", "x.padorupado.ru"⟩
         "origin" = some t.origin ∧
       generateHeaders domainTemplates ⟨"x.padorupado.ru", "x.padorupado.ru"⟩
         "host" = some "x.padorupado.ru") ∧
    generateHeaders domainTemplates ⟨"example.com", "example.com"⟩ "origin" =
      (if ("origin" : String) = "host" then some "example.com"
       else baseHeaders "origin") := by
  constructor
  · exact ⟨_, rfl, (generateHeaders_spec.1 ⟨"x.padorupado.ru", "x.padorupado.ru"⟩
      _ rfl).1, (generateHeaders_spec.1 ⟨"x.padorupado.ru", "x.padorupado.ru"⟩
      _ rfl).2.2.2.1⟩
  · exact generateHeaders_spec.2 ⟨"example.com", "example.com"⟩ rfl "origin"

/-- Witness for C4 (amended) at concrete inputs: fresh and expired
lookups on a one-entry cache with `ttl = 1`. -/
theorem cache_ttl_spec_witness :
    (cacheGet (cacheSet (⟨[], defaultCacheTtl⟩ : SimpleCache Nat)
        "k" 7 "text/plain" 1 0) "k" 1000).1 = some (7, "text/plain") ∧
    (cacheGet (cacheSet (⟨[], defaultCacheTtl⟩ : SimpleCache Nat)
        "k" 7 "text/plain" 1 0) "k" 1001).1 = none :=
  ⟨cache_ttl_spec.1 Nat ⟨[], defaultCacheTtl⟩ "k" 7 "text/plain" 1 0 1000
      (by omega) (by omega),
   (cache_ttl_spec.2.1 Nat ⟨[], defaultCacheTtl⟩ "k" 7 "text/plain" 1 0 1001
      (by omega) (by omega) (by simp [assocKeys])).1⟩

/-! ## Claim C1: concrete playlist rewrite scenarios -/

set_option maxRecDepth 200000 in
/-- **C1.**  With source URL
`https://cdn.example.com/videos/show/index.m3u8` and proxy base path
`/proxy`, the bare URI line `segment001.ts` is rewritten to
`/proxy?url=https%3A%2F%2Fcdn.example.com%2Fvideos%2Fshow%2Fsegment001.ts`,
and the directive `#EXT-X-KEY:METHOD=AES-128,URI="key.bin"` has its URI
attribute value rewritten in place the same way with the rest of the
line preserved verbatim. -/
theorem processM3u8_scenarios :
    processM3u8 "segment001.ts"
      "https://cdn.example.com/videos/show/index.m3u8" "/proxy" =
      "/proxy?url=https%3A%2F%2Fcdn.example.com%2Fvideos%2Fshow%2Fsegment001.ts" ∧
    processM3u8 "#EXT-X-KEY:METHOD=AES-128,URI=\"key.bin\""
      "https://cdn.example.com/videos/show/index.m3u8" "/proxy" =
      "#EXT-X-KEY:METHOD=AES-128,URI=\"/proxy?url=https%3A%2F%2Fcdn.example.com%2Fvideos%2Fshow%2Fkey.bin\"" :=
  ⟨rfl, rfl⟩

/-! ## Claims C8 and C10: per-line guards and error recovery -/

/-- The directive fold leaves the accumulator untouched when every value
is either already proxied or fails to resolve. -/
theorem foldl_uri_noop (protocol basePath proxyU : List Char)
    (vs : List (List Char)) (acc : List Char)
    (h : ∀ v ∈ vs, lstarts proxyU v = true ∨ resolveRef protocol basePath v = none) :
    vs.foldl
      (fun acc v =>
        if lstarts proxyU v then acc
        else
          match resolveRef protocol basePath v with
          | some abs => replaceFirst acc (uriPat v) (uriPat (proxify proxyU abs))
          | none => acc)
      acc = acc := by
  induction vs generalizing acc with
  | nil => rfl
  | cons v vs ih =>
    rw [List.foldl_cons]
    rcases h v (List.mem_cons_self _ _) with hv | hv
    · rw [if_pos hv]
      exact ih acc fun v' hv' => h v' (List.mem_cons_of_mem _ hv')
    · by_cases hskip : lstarts proxyU v = true
      · rw [if_pos hskip]
        exact ih acc fun v' hv' => h v' (List.mem_cons_of_mem _ hv')
      · rw [if_neg hskip, hv]
        exact ih acc fun v' hv' => h v' (List.mem_cons_of_mem _ hv')

/-- A directive line whose every `URI="..."` value is already proxied or
unresolvable passes through `processLine` unchanged. -/
theorem processLine_directive_noop (protocol basePath proxyU line : List Char)
    (hdir : lstarts "#".data (jsTrim line) = true)
    (h : ∀ v ∈ matchAllURI line,
      lstarts proxyU v = true ∨ resolveRef protocol basePath v = none) :
    processLine protocol basePath proxyU line = line := by
  simp only [processLine]
  rw [hdir]
  simp only [if_true]
  by_cases hc : containsSub uriAttr line = true
  · rw [if_pos hc]
    unfold processedDirective
    exact foldl_uri_noop _ _ _ _ _ h
  · rw [if_neg hc]

/-- A nonblank non-directive line that is already proxied passes through
unchanged. -/
theorem processLine_proxied_noop (protocol basePath proxyU line : List Char)
    (hdir : lstarts "#".data (jsTrim line) = false)
    (hne : (jsTrim line).isEmpty = false)
    (hpre : lstarts proxyU (jsTrim line) = true) :
    processLine protocol basePath proxyU line = line := by
  simp only [processLine]
  rw [hdir, hne, hpre]
  simp

/-- A nonblank non-directive line whose resolution fails passes through
unchanged. -/
theorem processLine_fail_noop (protocol basePath proxyU line : List Char)
    (hdir : lstarts "#".data (jsTrim line) = false)
    (hne : (jsTrim line).isEmpty = false)
    (hpre : lstarts proxyU (jsTrim line) = false)
    (hres : resolveRef protocol basePath (jsTrim line) = none) :
    processLine protocol basePath proxyU line = line := by
  simp only [processLine]
  rw [hdir, hne, hpre, hres]
  simp

/-- **C8.**  `processM3u8` is total and falls back gracefully: if the
source URL does not parse, the document is returned untouched; otherwise
every input line maps to exactly one output line (a map over the split
lines, joined with `\n`); a non-directive line whose resolution fails is
emitted unchanged (while the other lines are still processed, by the map
structure); and a directive line all of whose URI values are already
proxied or unresolvable is emitted unchanged. -/
theorem processM3u8_error_recovery :
    (∀ content baseUrl proxyU : String,
       parseUrlProtocol baseUrl.data = none →
       processM3u8 content baseUrl proxyU = content) ∧
    (∀ (content baseUrl proxyU : String) (protocol : List Char),
       parseUrlProtocol baseUrl.data = some protocol →
       processM3u8 content baseUrl proxyU =
         String.mk (joinLF ((splitLines content.data).map
           (processLine protocol (m3u8BasePath baseUrl.data) proxyU.data)))) ∧
    (∀ protocol basePath proxyU line,
       lstarts "#".data (jsTrim line) = false →
       (jsTrim line).isEmpty = false →
       lstarts proxyU (jsTrim line) = false →
       resolveRef protocol basePath (jsTrim line) = none →
       processLine protocol basePath proxyU line = line) ∧
    (∀ protocol basePath proxyU line,
       lstarts "#".data (jsTrim line) = true →
       (∀ v ∈ matchAllURI line,
          lstarts proxyU v = true ∨ resolveRef protocol basePath v = none) →
       processLine protocol basePath proxyU line = line) := by
  refine ⟨?_, ?_, ?_, ?_⟩
  · intro content baseUrl proxyU h
    unfold processM3u8 processM3u8L
    rw [h]
  · intro content baseUrl proxyU protocol h
    unfold processM3u8 processM3u8L
    rw [h]
  · intro protocol basePath proxyU line h1 h2 h3 h4
    exact processLine_fail_noop _ _ _ _ h1 h2 h3 h4
  · intro protocol basePath proxyU line h1 h2
    exact processLine_directive_noop _ _ _ _ h1 h2

/-- Witness for C8: an unparsable source URL returns the content
untouched; a failing relative reference (invalid base path: the source
URL `https://x.m3u8` strips to base `https://` with no host) passes
through unchanged. -/
theorem processM3u8_error_recovery_witness :
    processM3u8 "a.ts\n#EXTINF:4," "not a url" "/proxy" = "a.ts\n#EXTINF:4," ∧
    processM3u8 "seg.ts" "https://x.m3u8" "/proxy" = "seg.ts" := by
  constructor
  · exact processM3u8_error_recovery.1 "a.ts\n#EXTINF:4," "not a url" "/proxy" rfl
  · have h := processM3u8_error_recovery.2.1 "seg.ts" "https://x.m3u8" "/proxy"
      "https:".data rfl
    rw [h]
    have h2 := processM3u8_error_recovery.2.2.1 "https:".data
      (m3u8BasePath "https://x.m3u8".data) "/proxy".data "seg.ts".data
      rfl rfl rfl rfl
    rw [show splitLines "seg.ts".data = ["seg.ts".data] from rfl]
    rw [List.map_singleton, h2]
    rfl

/-- **C10.**  The already-proxied guard is a plain string-prefix test on
the trimmed line (and on each raw URI attribute value): any nonblank
non-directive line whose trimmed text begins with the proxy base path is
emitted unchanged — even when it merely shares the prefix, as
`/proxyfoo/seg.ts` under base path `/proxy` — and a directive line whose
URI values all begin with the proxy base path is emitted unchanged. -/
theorem prefix_guard_spec :
    (∀ protocol basePath proxyU line,
       lstarts "#".data (jsTrim line) = false →
       (jsTrim line).isEmpty = false →
       lstarts proxyU (jsTrim line) = true →
       processLine protocol basePath proxyU line = line) ∧
    (∀ protocol basePath proxyU line,
       lstarts "#".data (jsTrim line) = true →
       (∀ v ∈ matchAllURI line, lstarts proxyU v = true) →
       processLine protocol basePath proxyU line = line) ∧
    processM3u8 "/proxyfoo/seg.ts"
      "https://cdn.example.com/videos/show/index.m3u8" "/proxy" =
      "/proxyfoo/seg.ts" := by
  refine ⟨?_, ?_, ?_⟩
  · intro protocol basePath proxyU line h1 h2 h3
    exact processLine_proxied_noop _ _ _ _ h1 h2 h3
  · intro protocol basePath proxyU line h1 h2
    exact processLine_directive_noop _ _ _ _ h1 fun v hv => Or.inl (h2 v hv)
  · have h := processM3u8_error_recovery.2.1 "/proxyfoo/seg.ts"
      "https://cdn.example.com/videos/show/index.m3u8" "/proxy" "https:".data rfl
    rw [h]
    have h2 := processLine_proxied_noop "https:".data
      (m3u8BasePath "https://cdn.example.com/videos/show/index.m3u8".data)
      "/proxy".data "/proxyfoo/seg.ts".data rfl rfl rfl
    rw [show splitLines "/proxyfoo/seg.ts".data = ["/proxyfoo/seg.ts".data] from rfl]
    rw [List.map_singleton, h2]
    rfl

/-- Witness for C10 at a concrete line: `/proxyfoo/seg.ts` with proxy
base path `/proxy` is left unchanged by `processLine`. -/
theorem prefix_guard_spec_witness :
    processLine "https:".data "https://cdn.example.com/videos/show/".data
      "/proxy".data "/proxyfoo/seg.ts".data = "/proxyfoo/seg.ts".data :=
  prefix_guard_spec.1 "https:".data "https://cdn.example.com/videos/show/".data
    "/proxy".data "/proxyfoo/seg.ts".data rfl rfl rfl


/-! ## Claim C3: the content-encoding header -/

/-- **C3 counterexample.**  With a gzip payload whose decompression
fails, the pipeline continues with the original compressed bytes — and
the `content-encoding` header is deleted anyway (src/index.ts:231-233
deletes it unconditionally), contradicting the claim that it is retained
exactly when decompression failed. -/
theorem contentEncoding_counterexample :
    (handleEncoding failingDecompressors
       (fun k => if k = "content-encoding" then some "gzip" else none)
       [31, 139, 8]).1 = [31, 139, 8] ∧
    (handleEncoding failingDecompressors
       (fun k => if k = "content-encoding" then some "gzip" else none)
       [31, 139, 8]).2 "content-encoding" = none :=
  ⟨rfl, rfl⟩

/-- **C3 (amended).**  The `content-encoding` response header is removed
whenever it is present with a non-empty value — regardless of whether
decompression succeeded or failed (failures are swallowed inside
`decompressContent`, which returns the original bytes); when the header
is absent the headers are returned untouched; and on decompression
failure the pipeline continues with the original compressed bytes. -/
theorem contentEncoding_spec :
    (∀ (d : Decompressors) (headers : String → Option String)
       (content : List Nat) (e : String),
       headers "content-encoding" = some e → e ≠ "" →
       (handleEncoding d headers content).2 "content-encoding" = none) ∧
    (∀ (d : Decompressors) (headers : String → Option String)
       (content : List Nat),
       headers "content-encoding" = none →
       ∀ k, (handleEncoding d headers content).2 k = headers k) ∧
    (∀ (d : Decompressors) (content : List Nat) (e : String),
       d.gunzip content = none → d.inflate content = none →
       d.brotli content = none → d.zstd content = none →
       decompressContent d content (some e) = content) ∧
    (∀ (d : Decompressors) (headers : String → Option String)
       (content : List Nat) (e : String),
       headers "content-encoding" = some e → e ≠ "" →
       (handleEncoding d headers content).1 =
         decompressContent d content (some e)) := by
  refine ⟨?_, ?_, ?_, ?_⟩
  · intro d headers content e h1 h2
    simp only [handleEncoding, h1, if_neg h2]
    simp
  · intro d headers content h1 k
    simp only [handleEncoding, h1]
  · intro d content e h1 h2 h3 h4
    simp only [decompressContent]
    split_ifs <;> simp [h1, h2, h3, h4]
  · intro d headers content e h1 h2
    simp only [handleEncoding, h1, if_neg h2]

/-- Witness for C3 (amended) at concrete inputs. -/
theorem contentEncoding_spec_witness :
    (handleEncoding failingDecompressors
       (fun k => if k = "content-encoding" then some "br" else none)
       [1, 2, 3]).2 "content-encoding" = none :=
  contentEncoding_spec.1 failingDecompressors
    (fun k => if k = "content-encoding" then some "br" else none)
    [1, 2, 3] "br" rfl (by decide)

/-! ## Claim C5: the conditional rewrite -/

/-- **C5.**  The playlist rewriter runs exactly when the URL or the
classified content type looks like M3U8 AND the content actually starts
with a playlist marker; when the marker check fails the content is
returned unrewritten and the content type is not forced to the playlist
media type — also at the concrete disguised input: a `.m3u8` URL whose
bytes do not start with `#E`. -/
theorem conditional_rewrite_spec :
    (∀ (url : String) (content : HandlerContent) (ct : String),
       (rewriteStage url content ct).2.2 = true ↔
         ((isM3u8Url url || isM3u8ContentType ct) = true ∧
          isActuallyM3u8 content = true)) ∧
    (∀ (url : String) (content : HandlerContent) (ct : String),
       isActuallyM3u8 content = false →
       (rewriteStage url content ct).1 = content ∧
       (rewriteStage url content ct).2.1 = ct) ∧
    ((rewriteStage "https://cdn.example.com/video.m3u8"
        (.buf [0x47, 0x40, 0x11]) "application/vnd.apple.mpegurl").1 =
        .buf [0x47, 0x40, 0x11] ∧
     (rewriteStage "https://cdn.example.com/video.m3u8"
        (.buf [0x47, 0x40, 0x11]) "application/vnd.apple.mpegurl").2.2 =
        false) := by
  refine ⟨?_, ?_, rfl, rfl⟩
  · intro url content ct
    unfold rewriteStage
    by_cases h :
        ((isM3u8Url url || isM3u8ContentType ct) && isActuallyM3u8 content) = true
    · rw [if_pos h]
      simp only [Bool.and_eq_true] at h
      simpa using h
    · rw [if_neg h]
      simp only [Bool.and_eq_true] at h
      constructor
      · intro hc; exact absurd hc (by simp)
      · intro hc; exact absurd hc h
  · intro url content ct h
    unfold rewriteStage
    rw [if_neg (by simp [h])]
    exact ⟨rfl, rfl⟩

/-- Witness for C5 at a concrete non-playlist payload. -/
theorem conditional_rewrite_spec_witness :
    (rewriteStage "https://cdn.example.com/video.m3u8"
       (.buf [0, 1, 2]) "image/png").1 = .buf [0, 1, 2] :=
  (conditional_rewrite_spec.2.1 "https://cdn.example.com/video.m3u8"
    (.buf [0, 1, 2]) "image/png" rfl).1

/-! ## Claim C9: cache-write discipline -/

theorem eraseAssoc_sublist (k : String) (l : List (String × CacheEntry α)) :
    (eraseAssoc k l).Sublist l := by
  induction l with
  | nil => exact List.Sublist.refl _
  | cons hd tl ih =>
    by_cases h : hd.1 = k
    · rw [eraseAssoc, if_pos h]
      exact List.sublist_cons_self _ _
    · rw [eraseAssoc, if_neg h]
      exact ih.cons₂ hd

theorem cacheGet_entries_sublist (c : SimpleCache α) (k : String) (now : Nat) :
    (cacheGet c k now).2.entries.Sublist c.entries := by
  unfold cacheGet
  cases h : lookupAssoc k c.entries with
  | none => exact List.Sublist.refl _
  | some e =>
    by_cases hexp : entryExpired e now = true
    · simp only [hexp, if_true]
      exact eraseAssoc_sublist _ _
    · simp only [hexp]
      exact List.Sublist.refl _

set_option maxRecDepth 8000 in
/-- **C9 counterexample.**  The claim that a failed request leaves the
cache "exactly as it was" fails: the initial cache lookup lazily deletes
an expired entry, so a request whose fetch then throws still mutates the
cache. -/
theorem cache_failed_request_counterexample :
    (handleProxy expiredCache 5000000 "https://a/x" none failingDecompressors
       300).1 = .serverError ∧
    (handleProxy expiredCache 5000000 "https://a/x" none failingDecompressors
       300).2 ≠ expiredCache := by
  have hres : handleProxy expiredCache 5000000 "https://a/x" none
      failingDecompressors 300 =
      (.serverError, { entries := [], defaultTtl := 300 }) := rfl
  refine ⟨by rw [hres], ?_⟩
  rw [hres]
  intro h
  have h2 := congrArg (fun c => c.entries) h
  simp [expiredCache] at h2

/-- **C9 (amended).**  A cache entry is written only after fetch,
decompression, classification and conditional rewrite have all
completed: on a successful run the stored entry is exactly the returned
(content, contentType) pair, written under the target URL into the
post-lookup cache; if the fetch throws the handler surfaces an error and
no entry is stored — every entry of the resulting cache was already
present (a sublist of the pre-request entries; the only possible
mutation is the lazy deletion of an expired entry by the initial
lookup); an invalid URL leaves the cache exactly unchanged. -/
theorem cache_write_discipline :
    (∀ (cache : SimpleCache HandlerContent) (now : Nat) (targetUrl : String)
       (fetch : Option ProxyResultM) (d : Decompressors) (cacheTtl : Nat),
       parseUrlProtocol targetUrl.data = none →
       handleProxy cache now targetUrl fetch d cacheTtl =
         (.clientError, cache)) ∧
    (∀ (cache : SimpleCache HandlerContent) (now : Nat) (targetUrl : String)
       (d : Decompressors) (cacheTtl : Nat),
       (parseUrlProtocol targetUrl.data).isSome = true →
       (cacheGet cache targetUrl now).1 = none →
       (handleProxy cache now targetUrl none d cacheTtl).1 = .serverError ∧
       (handleProxy cache now targetUrl none d cacheTtl).2.entries.Sublist
         cache.entries) ∧
    (∀ (cache : SimpleCache HandlerContent) (now : Nat) (targetUrl : String)
       (r : ProxyResultM) (d : Decompressors) (cacheTtl : Nat),
       (parseUrlProtocol targetUrl.data).isSome = true →
       (cacheGet cache targetUrl now).1 = none →
       handleProxy cache now targetUrl (some r) d cacheTtl =
         (.ok (processFetched targetUrl r d).1 (processFetched targetUrl r d).2,
          cacheSet (cacheGet cache targetUrl now).2 targetUrl
            (processFetched targetUrl r d).1 (processFetched targetUrl r d).2
            cacheTtl now)) := by
  refine ⟨?_, ?_, ?_⟩
  · intro cache now targetUrl fetch d cacheTtl h
    simp only [handleProxy, h, Option.isNone_none, if_true]
  · intro cache now targetUrl d cacheTtl hvalid hmiss
    rcases hp : parseUrlProtocol targetUrl.data with _ | p
    · rw [hp] at hvalid
      exact absurd hvalid (by simp)
    · rcases hg : cacheGet cache targetUrl now with ⟨res, c1⟩
      rw [hg] at hmiss
      obtain rfl : res = none := hmiss
      have hsub := cacheGet_entries_sublist cache targetUrl now
      rw [hg] at hsub
      constructor
      · simp only [handleProxy, hp, Option.isNone_some, Bool.false_eq_true,
          if_false, hg]
      · simp only [handleProxy, hp, Option.isNone_some, Bool.false_eq_true,
          if_false, hg]
        exact hsub
  · intro cache now targetUrl r d cacheTtl hvalid hmiss
    rcases hp : parseUrlProtocol targetUrl.data with _ | p
    · rw [hp] at hvalid
      exact absurd hvalid (by simp)
    · rcases hg : cacheGet cache targetUrl now with ⟨res, c1⟩
      rw [hg] at hmiss
      obtain rfl : res = none := hmiss
      simp only [handleProxy, hp, Option.isNone_some, Bool.false_eq_true,
        if_false, hg]

/-- Witness for C9 (amended) at concrete inputs: an empty cache, a valid
URL and a throwing fetch. -/
theorem cache_write_discipline_witness :
    (handleProxy (⟨[], 300⟩ : SimpleCache HandlerContent) 0 "https://a/x"
       none failingDecompressors 300).1 = .serverError :=
  (cache_write_discipline.2.1 ⟨[], 300⟩ 0 "https://a/x" failingDecompressors
    300 rfl rfl).1


/-! ## Claim C7: idempotence analysis — basic string lemmas -/

theorem lstarts_iff (pat s : List Char) :
    lstarts pat s = true ↔ ∃ t, s = pat ++ t := by
  induction pat generalizing s with
  | nil => simp [lstarts]
  | cons p ps ih =>
    cases s with
    | nil =>
      simp only [lstarts, List.cons_append]
      constructor
      · intro h; exact absurd h (by simp)
      · rintro ⟨t, h⟩; exact absurd h (by simp)
    | cons c cs =>
      simp only [lstarts, Bool.and_eq_true, beq_iff_eq, ih, List.cons_append]
      constructor
      · rintro ⟨rfl, t, rfl⟩; exact ⟨t, rfl⟩
      · rintro ⟨t, h⟩
        injection h with h1 h2
        exact ⟨h1.symm, t, h2⟩

theorem lstarts_append_self (pat t : List Char) :
    lstarts pat (pat ++ t) = true :=
  (lstarts_iff pat (pat ++ t)).mpr ⟨t, rfl⟩

theorem lstarts_nil (s : List Char) : lstarts [] s = true := rfl

theorem containsSub_iff (pat s : List Char) :
    containsSub pat s = true ↔ ∃ a b, s = a ++ pat ++ b := by
  induction s with
  | nil =>
    simp only [containsSub, List.isEmpty_iff]
    constructor
    · intro h; exact ⟨[], [], by simp [h]⟩
    · rintro ⟨a, b, hab⟩
      rcases List.append_eq_nil.mp (List.append_eq_nil.mp hab.symm).1 with ⟨-, h2⟩
      exact h2
  | cons c cs ih =>
    simp only [containsSub, Bool.or_eq_true, lstarts_iff, ih]
    constructor
    · rintro (⟨t, ht⟩ | ⟨a, b, hab⟩)
      · exact ⟨[], t, by simpa using ht⟩
      · exact ⟨c :: a, b, by simp [hab]⟩
    · rintro ⟨a, b, hab⟩
      cases a with
      | nil => exact Or.inl ⟨b, by simpa using hab⟩
      | cons a0 as =>
        right
        rw [List.cons_append, List.cons_append] at hab
        injection hab with h1 h2
        exact ⟨as, b, h2⟩

theorem mem_of_containsSub (pat s : List Char) (h : containsSub pat s = true) :
    ∀ c ∈ pat, c ∈ s := by
  rcases (containsSub_iff pat s).mp h with ⟨a, b, rfl⟩
  intro c hc
  exact List.mem_append_left _ (List.mem_append_right _ hc)

theorem containsSub_of_parts (pat a b : List Char) :
    containsSub pat (a ++ pat ++ b) = true :=
  (containsSub_iff _ _).mpr ⟨a, b, rfl⟩

theorem dropWhile_all_false (p : Char → Bool) (l : List Char)
    (h : ∀ c ∈ l, p c = false) : l.dropWhile p = l := by
  cases l with
  | nil => rfl
  | cons c cs =>
    rw [List.dropWhile_cons, if_neg]
    rw [h c (List.mem_cons_self _ _)]
    simp

theorem jsTrim_eq_self (s : List Char) (h : ∀ c ∈ s, isJsSpace c = false) :
    jsTrim s = s := by
  unfold jsTrim
  rw [dropWhile_all_false _ _ h,
    dropWhile_all_false _ _ (fun c hc => h c (List.mem_reverse.mp hc)),
    List.reverse_reverse]

theorem dropWhile_append_of_ne_nil (p : Char → Bool) (a b : List Char)
    (h : a.dropWhile p ≠ []) :
    (a ++ b).dropWhile p = a.dropWhile p ++ b := by
  induction a with
  | nil => exact absurd rfl h
  | cons c cs ih =>
    by_cases hc : p c = true
    · rw [List.dropWhile_cons, if_pos hc] at h
      rw [List.cons_append, List.dropWhile_cons, if_pos hc,
        List.dropWhile_cons, if_pos hc]
      exact ih h
    · have hc' : p c = false := by simpa using hc
      rw [List.cons_append, List.dropWhile_cons, List.dropWhile_cons, hc']
      simp

theorem dropWhile_append_of_nil (p : Char → Bool) (a b : List Char)
    (h : a.dropWhile p = []) :
    (a ++ b).dropWhile p = b.dropWhile p := by
  induction a with
  | nil => rfl
  | cons c cs ih =>
    by_cases hc : p c = true
    · rw [List.dropWhile_cons, if_pos hc] at h
      rw [List.cons_append, List.dropWhile_cons, if_pos hc]
      exact ih h
    · rw [List.dropWhile_cons, if_neg (by simp [hc])] at h
      exact absurd h (by simp)

theorem dropWhile_append_singleton (p : Char → Bool) (a : List Char)
    (c : Char) (hc : p c = false) :
    ∃ W, (a ++ [c]).dropWhile p = W ++ [c] := by
  by_cases h : a.dropWhile p = []
  · refine ⟨[], ?_⟩
    rw [dropWhile_append_of_nil p a [c] h, List.dropWhile_cons, hc]
    simp
  · exact ⟨a.dropWhile p, dropWhile_append_of_ne_nil p a [c] h⟩

theorem jsTrim_starts (X : List Char) (c : Char) (Z : List Char)
    (hd : X.dropWhile isJsSpace = c :: Z) (hc : isJsSpace c = false) :
    ∃ R, jsTrim X = c :: R := by
  unfold jsTrim
  rw [hd, List.reverse_cons]
  rcases dropWhile_append_singleton isJsSpace Z.reverse c hc with ⟨W, hW⟩
  rw [hW]
  refine ⟨W.reverse, ?_⟩
  simp


theorem splitLines_ne_nil (s : List Char) : splitLines s ≠ [] := by
  match s with
  | [] => simp [splitLines]
  | [c] =>
    rw [splitLines]
    split_ifs <;> simp
  | c :: c2 :: rest =>
    rw [splitLines]
    split_ifs
    · simp
    · simp
    · cases h : splitLines (c2 :: rest) <;> simp [consHead]

theorem consHead_chars (c : Char) (ls : List (List Char)) :
    ∀ l ∈ consHead c ls, ∀ x ∈ l, x = c ∨ ∃ l' ∈ ls, x ∈ l' := by
  intro l hl x hx
  cases ls with
  | nil =>
    simp [consHead] at hl
    subst hl
    simp at hx
    exact Or.inl hx
  | cons l0 ls0 =>
    simp only [consHead] at hl
    rcases List.mem_cons.mp hl with rfl | hl
    · rcases List.mem_cons.mp hx with rfl | hx
      · exact Or.inl rfl
      · exact Or.inr ⟨l0, List.mem_cons_self _ _, hx⟩
    · exact Or.inr ⟨l, List.mem_cons_of_mem _ hl, hx⟩

theorem splitLines_single (l : List Char) (h : '\n' ∉ l) :
    splitLines l = [l] := by
  match l with
  | [] => rfl
  | [c] =>
    have hc : ¬ c = '\n' := fun hc => h (by simp [hc])
    rw [splitLines, if_neg hc]
  | c :: c2 :: rest =>
    have hc : ¬ c = '\n' := fun hc => h (by simp [hc])
    have h2 : '\n' ∉ c2 :: rest := fun hm => h (List.mem_cons_of_mem _ hm)
    have hc2 : ¬ (c = '\r' ∧ c2 = '\n') := by
      rintro ⟨-, h3⟩
      exact h2 (by simp [h3])
    rw [splitLines, if_neg hc, if_neg hc2, splitLines_single (c2 :: rest) h2]
    rfl


theorem splitLines_lf (rest : List Char) :
    splitLines ('\n' :: rest) = [] :: splitLines rest := by
  cases rest with
  | nil => rfl
  | cons r rs => rw [splitLines, if_pos rfl]

theorem splitLines_chars : ∀ (s : List Char), ∀ l ∈ splitLines s, ∀ x ∈ l, x ∈ s
  | [] => by
    intro l hl x hx
    simp [splitLines] at hl
    subst hl
    simp at hx
  | [c] => by
    intro l hl x hx
    rw [splitLines] at hl
    split_ifs at hl
    · rcases List.mem_cons.mp hl with rfl | hl
      · simp at hx
      · simp at hl
        subst hl
        simp at hx
    · simp at hl
      subst hl
      simp at hx
      simp [hx]
  | c :: c2 :: rest => by
    intro l hl x hx
    rw [splitLines] at hl
    split_ifs at hl with h1 h2
    · rcases List.mem_cons.mp hl with rfl | hl
      · simp at hx
      · exact List.mem_cons_of_mem _ (splitLines_chars (c2 :: rest) l hl x hx)
    · rcases List.mem_cons.mp hl with rfl | hl
      · simp at hx
      · exact List.mem_cons_of_mem _ (List.mem_cons_of_mem _
          (splitLines_chars rest l hl x hx))
    · rcases consHead_chars c _ l hl x hx with rfl | ⟨l', hl', hx'⟩
      · exact List.mem_cons_self _ _
      · exact List.mem_cons_of_mem _ (splitLines_chars (c2 :: rest) l' hl' x hx')

theorem splitLines_no_newline : ∀ (s : List Char), ∀ l ∈ splitLines s, '\n' ∉ l
  | [] => by
    intro l hl
    simp [splitLines] at hl
    subst hl
    simp
  | [c] => by
    intro l hl
    rw [splitLines] at hl
    split_ifs at hl with h1
    · rcases List.mem_cons.mp hl with rfl | hl
      · simp
      · simp at hl
        subst hl
        simp
    · simp at hl
      subst hl
      simp
      exact fun hc => h1 hc.symm
  | c :: c2 :: rest => by
    intro l hl
    rw [splitLines] at hl
    split_ifs at hl with h1 h2
    · rcases List.mem_cons.mp hl with rfl | hl
      · simp
      · exact splitLines_no_newline (c2 :: rest) l hl
    · rcases List.mem_cons.mp hl with rfl | hl
      · simp
      · exact splitLines_no_newline rest l hl
    · intro hx
      rcases consHead_chars c _ l hl '\n' hx with heq | ⟨l', hl', hx'⟩
      · exact h1 heq.symm
      · exact splitLines_no_newline (c2 :: rest) l' hl' hx'

theorem splitLines_append_line (l rest : List Char) (h : '\n' ∉ l)
    (h2 : l.getLast? ≠ some '\r') :
    splitLines (l ++ '\n' :: rest) = l :: splitLines rest := by
  match l with
  | [] => exact splitLines_lf rest
  | [c] =>
    have hc : ¬ c = '\n' := fun hc => h (by simp [hc])
    have hcr : ¬ c = '\r' := fun hc => h2 (by simp [hc])
    show splitLines (c :: '\n' :: rest) = [c] :: splitLines rest
    rw [splitLines, if_neg hc, if_neg (by rintro ⟨hcc, -⟩; exact hcr hcc),
      splitLines_lf rest]
    rfl
  | c :: c2 :: l'' =>
    have hc : ¬ c = '\n' := fun hc => h (by simp [hc])
    have hc2 : ¬ c2 = '\n' := fun hc => h (by simp [hc])
    have h' : '\n' ∉ c2 :: l'' := fun hm => h (List.mem_cons_of_mem _ hm)
    have h2' : (c2 :: l'').getLast? ≠ some '\r' := by
      intro hl
      exact h2 (by rwa [List.getLast?_cons_cons])
    show splitLines (c :: (c2 :: l'' ++ '\n' :: rest)) = _
    rw [show (c2 :: l'' ++ '\n' :: rest : List Char) =
        c2 :: (l'' ++ '\n' :: rest) from rfl]
    rw [splitLines, if_neg hc,
      if_neg (by rintro ⟨-, hcc⟩; exact hc2 hcc)]
    rw [show (c2 :: (l'' ++ '\n' :: rest) : List Char) =
        (c2 :: l'') ++ '\n' :: rest from rfl]
    rw [splitLines_append_line (c2 :: l'') rest h' h2']
    rfl

theorem joinLF_cons (l : List Char) (ls : List (List Char)) (h : ls ≠ []) :
    joinLF (l :: ls) = l ++ '\n' :: joinLF ls := by
  cases ls with
  | nil => exact absurd rfl h
  | cons l2 ls2 => rfl

theorem splitLines_joinLF (ls : List (List Char)) (h : ls ≠ [])
    (hl : ∀ l ∈ ls, '\n' ∉ l ∧ l.getLast? ≠ some '\r') :
    splitLines (joinLF ls) = ls := by
  match ls with
  | [l] => exact splitLines_single l (hl l (List.mem_cons_self _ _)).1
  | l :: l2 :: ls2 =>
    rw [joinLF_cons l (l2 :: ls2) (by simp),
      splitLines_append_line l _ (hl l (List.mem_cons_self _ _)).1
        (hl l (List.mem_cons_self _ _)).2,
      splitLines_joinLF (l2 :: ls2) (by simp)
        (fun l' hl' => hl l' (List.mem_cons_of_mem _ hl'))]


/-! ### Percent-encoding output characters -/

theorem hexDigitChar_unreserved :
    ∀ n, n < 16 → isUnreservedChar (hexDigitChar n) = true := by decide

theorem utf8Bytes_lt (n : Nat) (h : n < 1114112) :
    ∀ b ∈ utf8Bytes n, b < 256 := by
  intro b hb
  unfold utf8Bytes at hb
  split_ifs at hb with h1 h2 h3
  · simp at hb
    omega
  · simp at hb
    have hd : n / 64 < 32 := (Nat.div_lt_iff_lt_mul (by norm_num)).mpr (by omega)
    have hm : n % 64 < 64 := Nat.mod_lt _ (by norm_num)
    rcases hb with rfl | rfl <;> omega
  · simp at hb
    have hd : n / 4096 < 16 := (Nat.div_lt_iff_lt_mul (by norm_num)).mpr (by omega)
    have hd2 : n / 64 % 64 < 64 := Nat.mod_lt _ (by norm_num)
    have hm : n % 64 < 64 := Nat.mod_lt _ (by norm_num)
    rcases hb with rfl | rfl | rfl <;> omega
  · simp at hb
    have hd : n / 262144 < 5 := (Nat.div_lt_iff_lt_mul (by norm_num)).mpr (by omega)
    have hd1 : n / 4096 % 64 < 64 := Nat.mod_lt _ (by norm_num)
    have hd2 : n / 64 % 64 < 64 := Nat.mod_lt _ (by norm_num)
    have hm : n % 64 < 64 := Nat.mod_lt _ (by norm_num)
    rcases hb with rfl | rfl | rfl | rfl <;> omega

theorem char_toNat_lt (c : Char) : c.toNat < 1114112 := by
  rcases c.valid with h | h
  · exact Nat.lt_trans h (by norm_num)
  · exact h.2

theorem encChar_safe (c : Char) : ∀ x ∈ encChar c, encSafeChar x = true := by
  intro x hx
  unfold encChar at hx
  split_ifs at hx with h
  · simp at hx
    subst hx
    simp [encSafeChar, h]
  · have hb := utf8Bytes_lt c.toNat (char_toNat_lt c)
    revert hx
    generalize hByte : utf8Bytes c.toNat = bs at hb
    clear hByte
    induction bs with
    | nil => intro hx; simp at hx
    | cons b bs ih =>
      intro hx
      simp only [List.foldr_cons] at hx
      rcases List.mem_cons.mp hx with rfl | hx
      · simp [encSafeChar]
      rcases List.mem_cons.mp hx with rfl | hx
      · have hb16 : b / 16 < 16 := by
          have := hb b (List.mem_cons_self _ _)
          omega
        simp [encSafeChar, hexDigitChar_unreserved _ hb16]
      rcases List.mem_cons.mp hx with rfl | hx
      · have hb16 : b % 16 < 16 := Nat.mod_lt _ (by norm_num)
        simp [encSafeChar, hexDigitChar_unreserved _ hb16]
      · exact ih (fun b' hb' => hb b' (List.mem_cons_of_mem _ hb')) hx

theorem encodeURIComponent_safe (s : List Char) :
    ∀ x ∈ encodeURIComponent s, encSafeChar x = true := by
  intro x hx
  unfold encodeURIComponent at hx
  rcases List.mem_flatten.mp hx with ⟨m, hm, hxm⟩
  rcases List.mem_map.mp hm with ⟨c, -, rfl⟩
  exact encChar_safe c x hxm

theorem encSafe_not_space (c : Char) (h : encSafeChar c = true) :
    isJsSpace c = false := by
  by_contra hc
  rw [Bool.not_eq_false] at hc
  simp only [isJsSpace, Bool.or_eq_true, beq_iff_eq] at hc
  rcases hc with ((((rfl | rfl) | rfl) | rfl) | rfl) | rfl <;>
    exact absurd h (by decide)

theorem encSafe_ne_quote (c : Char) (h : encSafeChar c = true) : c ≠ '"' := by
  rintro rfl
  exact absurd h (by decide)

theorem encSafe_ne_eq (c : Char) (h : encSafeChar c = true) : c ≠ '=' := by
  rintro rfl
  exact absurd h (by decide)

theorem encChar_ne_nil (c : Char) : encChar c ≠ [] := by
  unfold encChar
  split_ifs with h
  · simp
  · have h2 : utf8Bytes c.toNat ≠ [] := by
      unfold utf8Bytes
      split_ifs <;> simp
    cases hu : utf8Bytes c.toNat with
    | nil => exact absurd hu h2
    | cons b bs => simp

theorem encodeURIComponent_ne_nil (s : List Char) (h : s ≠ []) :
    encodeURIComponent s ≠ [] := by
  cases s with
  | nil => exact absurd rfl h
  | cons c cs =>
    unfold encodeURIComponent
    simp only [List.map_cons, List.flatten_cons]
    intro hc
    exact encChar_ne_nil c (List.append_eq_nil.mp hc).1

theorem proxify_chars (proxyU abs : List Char)
    (hp : ∀ c ∈ proxyU, isJsSpace c = false ∧ c ≠ '"') :
    ∀ c ∈ proxify proxyU abs, isJsSpace c = false ∧ c ≠ '"' := by
  intro c hc
  unfold proxify at hc
  rcases List.mem_append.mp hc with hc | hc
  · rcases List.mem_append.mp hc with hc | hc
    · exact hp c hc
    · simp at hc
      rcases hc with rfl | rfl | rfl | rfl | rfl <;> exact ⟨by decide, by decide⟩
  · have := encodeURIComponent_safe abs c hc
    exact ⟨encSafe_not_space c this, encSafe_ne_quote c this⟩


/-! ### The match scan: closed-form equations -/

theorem takeNotQuote_append (v rest : List Char) (hv : ∀ c ∈ v, c ≠ '"') :
    takeNotQuote (v ++ '"' :: rest) = v := by
  induction v with
  | nil =>
    show takeNotQuote ('"' :: rest) = []
    unfold takeNotQuote
    rw [List.takeWhile_cons, if_neg (by simp)]
  | cons c v' ih =>
    show takeNotQuote (c :: (v' ++ '"' :: rest)) = c :: v'
    unfold takeNotQuote at *
    rw [List.takeWhile_cons,
      if_pos (by simp [hv c (List.mem_cons_self _ _)]),
      ih (fun x hx => hv x (List.mem_cons_of_mem _ hx))]

theorem dropWhile_head_false (p : Char → Bool) (l : List Char) (c : Char)
    (t : List Char) (h : l.dropWhile p = c :: t) : p c = false := by
  induction l with
  | nil => simp at h
  | cons c0 l0 ih =>
    rw [List.dropWhile_cons] at h
    split_ifs at h with h0
    · exact ih h
    · injection h with h1 h2
      subst h1
      simpa using h0

theorem takeNotQuote_decomp (s : List Char)
    (h : (takeNotQuote s).length < s.length) :
    ∃ rest, s = takeNotQuote s ++ '"' :: rest := by
  have hsplit := List.takeWhile_append_dropWhile (p := fun c => c != '"') (l := s)
  cases hd : s.dropWhile (fun c => c != '"') with
  | nil =>
    exfalso
    have : takeNotQuote s = s := by
      have := hsplit
      rw [hd] at this
      simpa [takeNotQuote] using this
    rw [this] at h
    omega
  | cons c t =>
    have hc := dropWhile_head_false _ _ _ _ hd
    have hcq : c = '"' := by
      simpa using hc
    subst hcq
    refine ⟨t, ?_⟩
    conv_lhs => rw [← hsplit]
    rw [hd]
    rfl

theorem takeNotQuote_quote_free (s : List Char) :
    ∀ c ∈ takeNotQuote s, c ≠ '"' := by
  intro c hc
  have := List.mem_takeWhile_imp hc
  simpa using this

theorem matchAllURIAux_succ (fuel : Nat) (c : Char) (cs : List Char) :
    matchAllURIAux (fuel + 1) (c :: cs) =
      if matchesAt (c :: cs) = true then
        valueAt (c :: cs) ::
          matchAllURIAux fuel
            (((c :: cs).drop 5).drop ((valueAt (c :: cs)).length + 1))
      else matchAllURIAux fuel cs := by
  by_cases h1 : lstarts uriAttr (c :: cs) = true
  · by_cases h2 : (!(takeNotQuote ((c :: cs).drop 5)).isEmpty &&
        decide ((takeNotQuote ((c :: cs).drop 5)).length <
          ((c :: cs).drop 5).length)) = true
    · have hm : matchesAt (c :: cs) = true := by
        unfold matchesAt
        rw [h1]
        simpa using h2
      rw [if_pos hm]
      show (if lstarts uriAttr (c :: cs) then _ else _) = _
      rw [if_pos h1]
      show (if (!(takeNotQuote ((c :: cs).drop 5)).isEmpty &&
          decide ((takeNotQuote ((c :: cs).drop 5)).length <
            ((c :: cs).drop 5).length)) = true then _ else _) = _
      rw [if_pos h2]
      rfl
    · have hm : matchesAt (c :: cs) = false := by
        unfold matchesAt
        rw [h1]
        simpa using h2
      rw [hm]
      show (if lstarts uriAttr (c :: cs) then _ else _) = _
      rw [if_pos h1]
      show (if (!(takeNotQuote ((c :: cs).drop 5)).isEmpty &&
          decide ((takeNotQuote ((c :: cs).drop 5)).length <
            ((c :: cs).drop 5).length)) = true then _ else _) = _
      rw [if_neg h2]
      simp
  · have hm : matchesAt (c :: cs) = false := by
      unfold matchesAt
      rw [Bool.not_eq_true] at h1
      rw [h1]
      rfl
    rw [hm]
    show (if lstarts uriAttr (c :: cs) then _ else _) = _
    rw [if_neg h1]
    simp


theorem matchAllURIAux_eq_matchAllURI (fuel : Nat) :
    ∀ s : List Char, s.length < fuel → matchAllURIAux fuel s = matchAllURI s := by
  induction fuel using Nat.strong_induction_on with
  | _ fuel ih =>
    intro s hs
    cases fuel with
    | zero => omega
    | succ f =>
      cases s with
      | nil => rfl
      | cons c cs =>
        rw [matchAllURIAux_succ]
        have hdef : matchAllURI (c :: cs) =
            matchAllURIAux ((c :: cs).length + 1) (c :: cs) := rfl
        rw [hdef, matchAllURIAux_succ]
        by_cases hm : matchesAt (c :: cs) = true
        · rw [if_pos hm, if_pos hm]
          have h1 : (((c :: cs).drop 5)).length = (c :: cs).length - 5 :=
            List.length_drop _ _
          have h2 : ((((c :: cs).drop 5)).drop ((valueAt (c :: cs)).length + 1)).length =
              ((c :: cs).drop 5).length - ((valueAt (c :: cs)).length + 1) :=
            List.length_drop _ _
          have hlen : (c :: cs).length = cs.length + 1 := rfl
          congr 1
          rw [ih f (by omega) _ (by omega),
            ih ((c :: cs).length) (by omega) _ (by omega)]
        · rw [if_neg hm, if_neg hm]
          have hlen : (c :: cs).length = cs.length + 1 := rfl
          rw [ih f (by omega) cs (by omega),
            ih ((c :: cs).length) (by omega) cs (by omega)]

theorem matchAllURI_eq (s : List Char) (hs : s ≠ []) :
    matchAllURI s =
      if matchesAt s = true then
        valueAt s ::
          matchAllURI ((s.drop 5).drop ((valueAt s).length + 1))
      else matchAllURI s.tail := by
  cases s with
  | nil => exact absurd rfl hs
  | cons c cs =>
    have hdef : matchAllURI (c :: cs) =
        matchAllURIAux ((c :: cs).length + 1) (c :: cs) := rfl
    rw [hdef, matchAllURIAux_succ]
    have h1 : (((c :: cs).drop 5)).length = (c :: cs).length - 5 :=
      List.length_drop _ _
    have h2 : ((((c :: cs).drop 5)).drop ((valueAt (c :: cs)).length + 1)).length =
        ((c :: cs).drop 5).length - ((valueAt (c :: cs)).length + 1) :=
      List.length_drop _ _
    have hlen : (c :: cs).length = cs.length + 1 := rfl
    by_cases hm : matchesAt (c :: cs) = true
    · rw [if_pos hm, if_pos hm,
        matchAllURIAux_eq_matchAllURI ((c :: cs).length) _ (by omega)]
    · rw [if_neg hm, if_neg hm,
        matchAllURIAux_eq_matchAllURI ((c :: cs).length) cs (by omega)]
      rfl

theorem uriPat_assoc (v rest : List Char) :
    uriPat v ++ rest = uriAttr ++ (v ++ '"' :: rest) := by
  simp [uriPat]

theorem uriAttr_length : uriAttr.length = 5 := rfl

theorem uriScan_cons_gap (c : Char) (cs : List Char) (vs : List (List Char))
    (hm : matchesAt (c :: cs) = false) (h : UriScan cs vs) :
    UriScan (c :: cs) vs := by
  cases h with
  | nil s h0 =>
    refine UriScan.nil _ ?_
    intro s1 s2 h12
    cases s1 with
    | nil =>
      simp at h12
      rw [← h12]
      exact hm
    | cons c1 s1' =>
      rw [List.cons_append] at h12
      injection h12 with h1 h2
      exact h0 s1' s2 h2
  | cons g v rest vs hg hv hrest =>
    have hsh : (c :: (g ++ uriPat v ++ rest) : List Char) =
        (c :: g) ++ uriPat v ++ rest := rfl
    rw [hsh]
    refine UriScan.cons (c :: g) v rest vs ?_ hv hrest
    intro g1 g2 h12 hne
    cases g1 with
    | nil =>
      simp at h12
      rw [← h12]
      simpa using hm
    | cons c1 g1' =>
      rw [List.cons_append] at h12
      injection h12 with h1 h2
      exact hg g1' g2 h2 hne

theorem uriScan_matchAllURI (s : List Char) : UriScan s (matchAllURI s) := by
  have main : ∀ n : Nat, ∀ s : List Char, s.length = n → UriScan s (matchAllURI s) := by
    intro n
    induction n using Nat.strong_induction_on with
    | _ n ih =>
    intro s hn
    subst hn
    cases s with
    | nil =>
      exact UriScan.nil [] (by
        intro s1 s2 h12
        rw [(List.append_eq_nil.mp h12.symm).2]
        rfl)
    | cons c cs =>
      rw [matchAllURI_eq (c :: cs) (by simp)]
      by_cases hm : matchesAt (c :: cs) = true
      · rw [if_pos hm]
        have hmm := hm
        unfold matchesAt at hmm
        rw [Bool.and_eq_true] at hmm
        obtain ⟨hpre, hval⟩ := hmm
        simp only [Bool.and_eq_true, Bool.not_eq_true', List.isEmpty_iff,
          decide_eq_true_eq] at hval
        obtain ⟨t, ht⟩ := (lstarts_iff uriAttr (c :: cs)).mp hpre
        have hdrop : (c :: cs).drop 5 = t := by
          rw [ht, ← uriAttr_length, List.drop_left]
        rw [hdrop] at hval
        have hvlen : (takeNotQuote t).length < t.length := hval.2
        obtain ⟨rest, hrest⟩ := takeNotQuote_decomp t hvlen
        have hv : valueAt (c :: cs) = takeNotQuote t := by
          unfold valueAt
          rw [hdrop]
        have hshape : (c :: cs : List Char) = uriPat (takeNotQuote t) ++ rest := by
          rw [ht, uriPat_assoc, ← hrest]
        have hdrop2 : t.drop ((takeNotQuote t).length + 1) = rest := by
          set v0 := takeNotQuote t with hv0
          rw [hrest]
          rw [show (v0 ++ '"' :: rest : List Char) = (v0 ++ ['"']) ++ rest by simp,
            show v0.length + 1 = (v0 ++ ['"']).length by simp, List.drop_left]
        rw [hv, hdrop, hdrop2]
        have hrlen : rest.length < (c :: cs).length := by
          have hlen2 := congrArg List.length hshape
          rw [List.length_append] at hlen2
          have hup : (uriPat (takeNotQuote t)).length =
              (takeNotQuote t).length + 6 := by
            simp [uriPat, uriAttr]
          omega
        have hscan := UriScan.cons [] (takeNotQuote t) rest (matchAllURI rest)
          (by intro g1 g2 h12 hne
              exact absurd (List.append_eq_nil.mp h12.symm).2 hne)
          ⟨fun he => by rw [he] at hval; simpa using hval.1,
           takeNotQuote_quote_free t⟩
          (ih rest.length hrlen rest rfl)
        rw [List.nil_append] at hscan
        rw [hshape]
        exact hscan
      · rw [if_neg hm]
        rw [Bool.not_eq_true] at hm
        exact uriScan_cons_gap c cs _ hm
          (ih cs.length (by simp) cs rfl)
  exact main s.length s rfl

theorem matchAllURI_of_noMatch (s : List Char)
    (h : ∀ s1 s2 : List Char, s = s1 ++ s2 → matchesAt s2 = false) :
    matchAllURI s = [] := by
  induction s with
  | nil => rfl
  | cons c cs ih =>
    rw [matchAllURI_eq (c :: cs) (by simp),
      if_neg (by rw [h [] (c :: cs) rfl]; simp)]
    exact ih (fun s1 s2 h12 => h (c :: s1) s2 (by rw [List.cons_append, h12]))

theorem matchAllURI_gap_walk (v rest : List Char)
    (hvne : v ≠ []) (hvq : ∀ c ∈ v, c ≠ '"') :
    ∀ g : List Char,
      (∀ g1 g2 : List Char, g = g1 ++ g2 → g2 ≠ [] →
        matchesAt (g2 ++ uriPat v ++ rest) = false) →
      matchAllURI (g ++ uriPat v ++ rest) = v :: matchAllURI rest := by
  intro g
  induction g with
  | nil =>
    intro hg
    rw [List.nil_append, uriPat_assoc]
    have hne : uriAttr ++ (v ++ '"' :: rest) ≠ [] := by simp [uriAttr]
    have hdrop : (uriAttr ++ (v ++ '"' :: rest)).drop 5 = v ++ '"' :: rest := by
      rw [← uriAttr_length, List.drop_left]
    have hval : valueAt (uriAttr ++ (v ++ '"' :: rest)) = v := by
      unfold valueAt
      rw [hdrop, takeNotQuote_append v rest hvq]
    have hm : matchesAt (uriAttr ++ (v ++ '"' :: rest)) = true := by
      unfold matchesAt
      rw [lstarts_append_self]
      simp only [Bool.true_and, hdrop, takeNotQuote_append v rest hvq,
        Bool.and_eq_true, Bool.not_eq_true', decide_eq_true_eq]
      refine ⟨?_, by simp⟩
      cases v with
      | nil => exact absurd rfl hvne
      | cons a as => rfl
    rw [matchAllURI_eq _ hne, if_pos hm, hval, hdrop]
    congr 1
    rw [show (v ++ '"' :: rest : List Char) = (v ++ ['"']) ++ rest by simp,
      show v.length + 1 = (v ++ ['"']).length by simp, List.drop_left]
  | cons c g' ih =>
    intro hg
    rw [List.cons_append]
    have hm : matchesAt ((c :: g') ++ uriPat v ++ rest) = false :=
      hg [] (c :: g') rfl (by simp)
    rw [List.cons_append] at hm
    rw [matchAllURI_eq _ (by simp), if_neg (by rw [hm]; simp)]
    show matchAllURI (g' ++ uriPat v ++ rest) = _
    exact ih (fun g1 g2 h12 hne => hg (c :: g1) g2 (by rw [List.cons_append, h12]) hne)

theorem uriScan_eq_matchAllURI (s : List Char) (vs : List (List Char))
    (h : UriScan s vs) : matchAllURI s = vs := by
  induction h with
  | nil s h0 => exact matchAllURI_of_noMatch s h0
  | cons g v rest vs hg hv hrest ih =>
    rw [matchAllURI_gap_walk v rest hv.1 hv.2 g hg, ih]


/-! ### Transfer: a match inside a prefix is insensitive to the text
beyond the following `URI="` -/

theorem takeNotQuote_uriAttr_stable (Z w : List Char) :
    takeNotQuote (Z ++ (uriAttr ++ w)) = takeNotQuote (Z ++ "URI=".data) := by
  induction Z with
  | nil => rfl
  | cons z Z' ih =>
    rw [List.cons_append, List.cons_append]
    unfold takeNotQuote at *
    rw [List.takeWhile_cons, List.takeWhile_cons]
    by_cases hz : (z != '"') = true
    · rw [if_pos hz, if_pos hz, ih]
    · rw [if_neg hz, if_neg hz]

theorem takeNotQuote_length_le (s : List Char) :
    (takeNotQuote s).length ≤ s.length := by
  induction s with
  | nil => simp [takeNotQuote]
  | cons c cs ih =>
    unfold takeNotQuote at *
    rw [List.takeWhile_cons]
    by_cases hc : (c != '"') = true
    · rw [if_pos hc]
      simpa using ih
    · rw [if_neg hc]
      simp

theorem matchesAt_five (a b c d e : Char) (T' A : List Char) :
    matchesAt (a :: b :: c :: d :: e :: T' ++ A) =
      (lstarts uriAttr [a, b, c, d, e] &&
       (!(takeNotQuote (T' ++ A)).isEmpty &&
        decide ((takeNotQuote (T' ++ A)).length < (T' ++ A).length))) := by
  unfold matchesAt
  congr 1

theorem matchesAt_transfer (T x y : List Char) (hT : T ≠ []) :
    matchesAt (T ++ (uriAttr ++ x)) = matchesAt (T ++ (uriAttr ++ y)) ∧
    valueAt (T ++ (uriAttr ++ x)) = valueAt (T ++ (uriAttr ++ y)) := by
  match T with
  | [] => exact absurd rfl hT
  | [c1] =>
    constructor
    · show matchesAt (c1 :: (uriAttr ++ x)) = matchesAt (c1 :: (uriAttr ++ y))
      unfold matchesAt
      simp [lstarts, uriAttr]
    · rfl
  | [c1, c2] =>
    constructor
    · show matchesAt (c1 :: c2 :: (uriAttr ++ x)) = _
      unfold matchesAt
      simp [lstarts, uriAttr]
    · rfl
  | [c1, c2, c3] =>
    constructor
    · unfold matchesAt
      simp [lstarts, uriAttr]
    · rfl
  | [c1, c2, c3, c4] =>
    constructor
    · unfold matchesAt
      simp [lstarts, uriAttr]
    · rfl
  | c1 :: c2 :: c3 :: c4 :: c5 :: T' =>
    have hx := matchesAt_five c1 c2 c3 c4 c5 T' (uriAttr ++ x)
    have hy := matchesAt_five c1 c2 c3 c4 c5 T' (uriAttr ++ y)
    have htq : takeNotQuote (T' ++ (uriAttr ++ x)) =
        takeNotQuote (T' ++ (uriAttr ++ y)) := by
      rw [takeNotQuote_uriAttr_stable, takeNotQuote_uriAttr_stable]
    have hlenx : (takeNotQuote (T' ++ (uriAttr ++ x))).length < (T' ++ (uriAttr ++ x)).length := by
      have h1 : (takeNotQuote (T' ++ (uriAttr ++ x))).length ≤ T'.length + 4 := by
        rw [takeNotQuote_uriAttr_stable]
        have := takeNotQuote_length_le (T' ++ "URI=".data)
        simpa using this
      have h2 : (T' ++ (uriAttr ++ x)).length = T'.length + 5 + x.length := by
        simp [uriAttr]
        omega
      omega
    have hleny : (takeNotQuote (T' ++ (uriAttr ++ y))).length < (T' ++ (uriAttr ++ y)).length := by
      have h1 : (takeNotQuote (T' ++ (uriAttr ++ y))).length ≤ T'.length + 4 := by
        rw [takeNotQuote_uriAttr_stable]
        have := takeNotQuote_length_le (T' ++ "URI=".data)
        simpa using this
      have h2 : (T' ++ (uriAttr ++ y)).length = T'.length + 5 + y.length := by
        simp [uriAttr]
        omega
      omega
    have hlenx2 : (takeNotQuote (T' ++ (uriAttr ++ y))).length <
        (T' ++ (uriAttr ++ x)).length := htq ▸ hlenx
    constructor
    · show matchesAt (c1 :: c2 :: c3 :: c4 :: c5 :: T' ++ (uriAttr ++ x)) = _
      rw [hx, hy, htq, decide_eq_true hlenx2, decide_eq_true hleny]
    · show valueAt (c1 :: c2 :: c3 :: c4 :: c5 :: T' ++ (uriAttr ++ x)) = _
      unfold valueAt
      show takeNotQuote (T' ++ (uriAttr ++ x)) = takeNotQuote (T' ++ (uriAttr ++ y))
      exact htq

/-! ### replaceFirst at a known first occurrence -/

theorem encSafe_ne_dollar (c : Char) (h : encSafeChar c = true) : c ≠ '$' := by
  intro he
  subst he
  exact absurd h (by decide)

theorem getSubstitution_no_dollar (matched pre post : List Char) :
    ∀ repl : List Char, '$' ∉ repl →
      getSubstitution matched pre post repl = repl := by
  intro repl
  induction repl with
  | nil => intro _; rfl
  | cons c rest ih =>
    intro h
    have hc : c ≠ '$' := by
      intro he
      subst he
      exact h (List.mem_cons_self _ _)
    cases rest with
    | nil => rfl
    | cons d rest2 =>
      show (if c = '$' then _
        else c :: getSubstitution matched pre post (d :: rest2)) = _
      rw [if_neg hc, ih (fun hm => h (List.mem_cons_of_mem _ hm))]

theorem replaceFirstFrom_at (pat repl : List Char) (hpat : pat ≠ [])
    (hd : '$' ∉ repl) :
    ∀ X Y pre : List Char,
    (∀ X1 X2 : List Char, X = X1 ++ X2 → X2 ≠ [] →
      lstarts pat (X2 ++ Y) = false) →
    lstarts pat Y = true →
    replaceFirstFrom pat repl pre (X ++ Y) =
      X ++ (repl ++ Y.drop pat.length) := by
  intro X
  induction X with
  | nil =>
    intro Y pre _ hY
    rw [List.nil_append, List.nil_append]
    cases Y with
    | nil =>
      cases pat with
      | nil => exact absurd rfl hpat
      | cons p ps => exact absurd hY (by simp [lstarts])
    | cons y ys =>
      show (if lstarts pat (y :: ys) = true then
        getSubstitution pat pre ((y :: ys).drop pat.length) repl ++
          (y :: ys).drop pat.length
        else _) = _
      rw [if_pos hY,
        getSubstitution_no_dollar pat pre ((y :: ys).drop pat.length) repl hd]
  | cons x xs ih =>
    intro Y pre hX hY
    rw [List.cons_append]
    have hfalse : lstarts pat (x :: (xs ++ Y)) = false := by
      have := hX [] (x :: xs) rfl (by simp)
      rwa [List.cons_append] at this
    show (if lstarts pat (x :: (xs ++ Y)) = true then _
      else x :: replaceFirstFrom pat repl (pre ++ [x]) (xs ++ Y)) = _
    rw [if_neg (by rw [hfalse]; simp), List.cons_append]
    congr 1
    exact ih Y (pre ++ [x])
      (fun X1 X2 h12 hne => hX (x :: X1) X2 (by rw [h12]; rfl) hne) hY

theorem replaceFirst_at (X Y pat repl : List Char) (hpat : pat ≠ [])
    (hd : '$' ∉ repl)
    (hX : ∀ X1 X2 : List Char, X = X1 ++ X2 → X2 ≠ [] →
      lstarts pat (X2 ++ Y) = false)
    (hY : lstarts pat Y = true) :
    replaceFirst (X ++ Y) pat repl = X ++ (repl ++ Y.drop pat.length) :=
  replaceFirstFrom_at pat repl hpat hd X Y [] hX hY


/-! ### The structural rewriter: closed-form equations -/

theorem matchesAt_false_head (c : Char) (cs : List Char) (h : c ≠ 'U') :
    matchesAt (c :: cs) = false := by
  unfold matchesAt
  have h0 : ('U' == c) = false := by
    cases hb : ('U' == c)
    · rfl
    · exact absurd (eq_of_beq hb).symm h
  have h1 : lstarts uriAttr (c :: cs) = false := by
    rw [show uriAttr = 'U' :: ['R', 'I', '=', '"'] from rfl]
    show ('U' == c && lstarts ['R', 'I', '=', '"'] cs) = false
    rw [h0, Bool.false_and]
  rw [h1, Bool.false_and]

theorem rewriteScanAux_succ (protocol basePath proxyU : List Char)
    (fuel : Nat) (c : Char) (cs : List Char) :
    rewriteScanAux protocol basePath proxyU (fuel + 1) (c :: cs) =
      if matchesAt (c :: cs) = true then
        uriPat (transformVal protocol basePath proxyU (valueAt (c :: cs))) ++
          rewriteScanAux protocol basePath proxyU fuel
            ((c :: cs).drop (5 + (valueAt (c :: cs)).length + 1))
      else c :: rewriteScanAux protocol basePath proxyU fuel cs := by
  by_cases hm : matchesAt (c :: cs) = true
  · rw [if_pos hm]
    show (if matchesAt (c :: cs) then _ else _) = _
    rw [if_pos hm]
  · rw [if_neg hm]
    show (if matchesAt (c :: cs) then _ else _) = _
    rw [if_neg (by rw [Bool.not_eq_true] at hm; rw [hm]; simp)]

theorem rewriteScanAux_eq (protocol basePath proxyU : List Char) (fuel : Nat) :
    ∀ s : List Char, s.length < fuel →
      rewriteScanAux protocol basePath proxyU fuel s =
        rewriteScan protocol basePath proxyU s := by
  induction fuel using Nat.strong_induction_on with
  | _ fuel ih =>
    intro s hs
    cases fuel with
    | zero => omega
    | succ f =>
      cases s with
      | nil => rfl
      | cons c cs =>
        rw [rewriteScanAux_succ]
        have hdef : rewriteScan protocol basePath proxyU (c :: cs) =
            rewriteScanAux protocol basePath proxyU ((c :: cs).length + 1)
              (c :: cs) := rfl
        rw [hdef, rewriteScanAux_succ]
        by_cases hm : matchesAt (c :: cs) = true
        · rw [if_pos hm, if_pos hm]
          have h1 : ((c :: cs).drop (5 + (valueAt (c :: cs)).length + 1)).length =
              (c :: cs).length - (5 + (valueAt (c :: cs)).length + 1) :=
            List.length_drop _ _
          have hlen : (c :: cs).length = cs.length + 1 := rfl
          congr 1
          rw [ih f (by omega) _ (by omega),
            ih ((c :: cs).length) (by omega) _ (by omega)]
        · rw [if_neg hm, if_neg hm]
          have hlen : (c :: cs).length = cs.length + 1 := rfl
          rw [ih f (by omega) cs (by omega),
            ih ((c :: cs).length) (by omega) cs (by omega)]

theorem rewriteScan_nil (protocol basePath proxyU : List Char) :
    rewriteScan protocol basePath proxyU [] = [] := rfl

theorem rewriteScan_cons_noMatch (protocol basePath proxyU : List Char)
    (c : Char) (cs : List Char) (hm : matchesAt (c :: cs) = false) :
    rewriteScan protocol basePath proxyU (c :: cs) =
      c :: rewriteScan protocol basePath proxyU cs := by
  have hdef : rewriteScan protocol basePath proxyU (c :: cs) =
      rewriteScanAux protocol basePath proxyU ((c :: cs).length + 1)
        (c :: cs) := rfl
  rw [hdef, rewriteScanAux_succ, if_neg (by rw [hm]; simp)]
  have hlen : (c :: cs).length = cs.length + 1 := rfl
  rw [rewriteScanAux_eq protocol basePath proxyU ((c :: cs).length) cs (by omega)]

theorem rewriteScan_noMatch (protocol basePath proxyU : List Char)
    (s : List Char)
    (h : ∀ s₁ s₂ : List Char, s = s₁ ++ s₂ → matchesAt s₂ = false) :
    rewriteScan protocol basePath proxyU s = s := by
  induction s with
  | nil => rfl
  | cons c cs ih =>
    rw [rewriteScan_cons_noMatch protocol basePath proxyU c cs
      (h [] (c :: cs) rfl)]
    rw [ih (fun s₁ s₂ h12 => h (c :: s₁) s₂ (by rw [List.cons_append, h12]))]

theorem matchesAt_uriPat (v rest : List Char) (hvne : v ≠ [])
    (hvq : ∀ c ∈ v, c ≠ '"') :
    matchesAt (uriPat v ++ rest) = true ∧ valueAt (uriPat v ++ rest) = v := by
  rw [uriPat_assoc]
  have hdrop : (uriAttr ++ (v ++ '"' :: rest)).drop 5 = v ++ '"' :: rest := by
    rw [← uriAttr_length, List.drop_left]
  have hval : valueAt (uriAttr ++ (v ++ '"' :: rest)) = v := by
    unfold valueAt
    rw [hdrop, takeNotQuote_append v rest hvq]
  refine ⟨?_, hval⟩
  unfold matchesAt
  rw [lstarts_append_self]
  simp only [Bool.true_and, hdrop, takeNotQuote_append v rest hvq,
    Bool.and_eq_true, Bool.not_eq_true', decide_eq_true_eq]
  refine ⟨?_, by simp⟩
  cases v with
  | nil => exact absurd rfl hvne
  | cons a as => rfl

theorem rewriteScan_match (protocol basePath proxyU : List Char)
    (v rest : List Char) (hvne : v ≠ []) (hvq : ∀ c ∈ v, c ≠ '"') :
    rewriteScan protocol basePath proxyU (uriPat v ++ rest) =
      uriPat (transformVal protocol basePath proxyU v) ++
        rewriteScan protocol basePath proxyU rest := by
  rcases matchesAt_uriPat v rest hvne hvq with ⟨hm, hval⟩
  have hshape : uriPat v ++ rest = 'U' :: ("RI=\"".data ++ v ++ '"' :: rest) := by
    simp [uriPat, uriAttr]
  have hdef : rewriteScan protocol basePath proxyU (uriPat v ++ rest) =
      rewriteScanAux protocol basePath proxyU ((uriPat v ++ rest).length + 1)
        (uriPat v ++ rest) := rfl
  rw [hdef, hshape]
  rw [show ('U' :: ("RI=\"".data ++ v ++ '"' :: rest)).length =
    ("RI=\"".data ++ v ++ '"' :: rest).length + 1 from rfl]
  rw [rewriteScanAux_succ]
  rw [← hshape, if_pos hm, hval]
  have hdrop : (uriPat v ++ rest).drop (5 + v.length + 1) = rest := by
    rw [show 5 + v.length + 1 = (uriPat v).length by simp [uriPat, uriAttr]; omega,
      List.drop_left]
  rw [hdrop]
  congr 1
  have hlen : ("RI=\"".data ++ v ++ '"' :: rest).length = 4 + v.length + 1 + rest.length := by
    simp
    omega
  rw [rewriteScanAux_eq protocol basePath proxyU _ rest (by omega)]

theorem rewriteScan_gap (protocol basePath proxyU : List Char)
    (v rest : List Char) (hvne : v ≠ []) (hvq : ∀ c ∈ v, c ≠ '"') :
    ∀ g : List Char,
      (∀ g₁ g₂ : List Char, g = g₁ ++ g₂ → g₂ ≠ [] →
        matchesAt (g₂ ++ uriPat v ++ rest) = false) →
      rewriteScan protocol basePath proxyU (g ++ uriPat v ++ rest) =
        g ++ uriPat (transformVal protocol basePath proxyU v) ++
          rewriteScan protocol basePath proxyU rest := by
  intro g
  induction g with
  | nil =>
    intro _
    rw [List.nil_append, List.nil_append,
      rewriteScan_match protocol basePath proxyU v rest hvne hvq]
  | cons c g' ih =>
    intro hg
    have hm : matchesAt ((c :: g') ++ uriPat v ++ rest) = false :=
      hg [] (c :: g') rfl (by simp)
    show rewriteScan protocol basePath proxyU
        (c :: (g' ++ uriPat v ++ rest)) =
      c :: (g' ++ uriPat (transformVal protocol basePath proxyU v) ++
        rewriteScan protocol basePath proxyU rest)
    rw [rewriteScan_cons_noMatch protocol basePath proxyU c
      (g' ++ uriPat v ++ rest) hm]
    have hih :=
      ih (fun g₁ g₂ h12 hne => hg (c :: g₁) g₂ (by rw [List.cons_append, h12]) hne)
    exact congrArg (c :: ·) hih


/-! ### No match starts strictly inside a URI attribute region -/

theorem char_beq_false (x y : Char) (h : x ≠ y) : (x == y) = false := by
  cases hb : x == y
  · rfl
  · exact absurd (eq_of_beq hb) h

theorem matchesAt_false_of_lstarts (s : List Char)
    (h : lstarts uriAttr s = false) : matchesAt s = false := by
  unfold matchesAt
  rw [h, Bool.false_and]

theorem matchesAt_inside_false (v : List Char) (hvq : ∀ c ∈ v, c ≠ '"')
    (hvu : ∀ a : List Char, v ≠ a ++ "URI=".data) (rest : List Char) :
    ∀ i₁ i₂ : List Char, uriPat v = i₁ ++ i₂ → i₁ ≠ [] → i₂ ≠ [] →
    matchesAt (i₂ ++ rest) = false := by
  intro i₁ i₂ heq h₁ h₂
  have hs : 'U' :: 'R' :: 'I' :: '=' :: '"' :: (v ++ ['"']) = i₁ ++ i₂ := by
    rw [← heq]
    simp [uriPat, uriAttr]
  cases i₁ with
  | nil => exact absurd rfl h₁
  | cons x₁ j₁ =>
  rw [List.cons_append] at hs
  injection hs with hx₁ hs
  cases j₁ with
  | nil =>
    rw [List.nil_append] at hs
    subst hs
    exact matchesAt_false_head 'R' _ (by decide)
  | cons x₂ j₂ =>
  rw [List.cons_append] at hs
  injection hs with hx₂ hs
  cases j₂ with
  | nil =>
    rw [List.nil_append] at hs
    subst hs
    exact matchesAt_false_head 'I' _ (by decide)
  | cons x₃ j₃ =>
  rw [List.cons_append] at hs
  injection hs with hx₃ hs
  cases j₃ with
  | nil =>
    rw [List.nil_append] at hs
    subst hs
    exact matchesAt_false_head '=' _ (by decide)
  | cons x₄ j₄ =>
  rw [List.cons_append] at hs
  injection hs with hx₄ hs
  cases j₄ with
  | nil =>
    rw [List.nil_append] at hs
    subst hs
    exact matchesAt_false_head '"' _ (by decide)
  | cons x₅ j₅ =>
  rw [List.cons_append] at hs
  injection hs with hx₅ hs
  rcases List.append_eq_append_iff.mp hs.symm with ⟨a', hv1, hv2⟩ | ⟨c', hc1, hc2⟩
  · subst hv2
    cases a' with
    | nil => exact matchesAt_false_head '"' _ (by decide)
    | cons a a₁ =>
    cases a₁ with
    | nil =>
      apply matchesAt_false_of_lstarts
      show ('U' == a && lstarts ['R', 'I', '=', '"'] ('"' :: rest)) = false
      rw [show lstarts ['R', 'I', '=', '"'] ('"' :: rest) = false from rfl,
        Bool.and_false]
    | cons b a₂ =>
    cases a₂ with
    | nil =>
      apply matchesAt_false_of_lstarts
      show ('U' == a && ('R' == b && lstarts ['I', '=', '"'] ('"' :: rest))) = false
      rw [show lstarts ['I', '=', '"'] ('"' :: rest) = false from rfl,
        Bool.and_false, Bool.and_false]
    | cons c a₃ =>
    cases a₃ with
    | nil =>
      apply matchesAt_false_of_lstarts
      show ('U' == a && ('R' == b && ('I' == c &&
        lstarts ['=', '"'] ('"' :: rest)))) = false
      rw [show lstarts ['=', '"'] ('"' :: rest) = false from rfl,
        Bool.and_false, Bool.and_false, Bool.and_false]
    | cons d a₄ =>
    cases a₄ with
    | nil =>
      by_cases ha : a = 'U'
      · by_cases hbe : b = 'R'
        · by_cases hce : c = 'I'
          · by_cases hde : d = '='
            · subst ha
              subst hbe
              subst hce
              subst hde
              exact absurd hv1 (hvu j₅)
            · apply matchesAt_false_of_lstarts
              show ('U' == a && ('R' == b && ('I' == c && ('=' == d &&
                lstarts ['"'] ('"' :: rest))))) = false
              rw [char_beq_false '=' d (Ne.symm hde)]
              simp
          · apply matchesAt_false_of_lstarts
            show ('U' == a && ('R' == b && ('I' == c && ('=' == d &&
              lstarts ['"'] ('"' :: rest))))) = false
            rw [char_beq_false 'I' c (Ne.symm hce)]
            simp
        · apply matchesAt_false_of_lstarts
          show ('U' == a && ('R' == b && ('I' == c && ('=' == d &&
            lstarts ['"'] ('"' :: rest))))) = false
          rw [char_beq_false 'R' b (Ne.symm hbe)]
          simp
      · apply matchesAt_false_of_lstarts
        show ('U' == a && ('R' == b && ('I' == c && ('=' == d &&
          lstarts ['"'] ('"' :: rest))))) = false
        rw [char_beq_false 'U' a (Ne.symm ha)]
        simp
    | cons e a₅ =>
      have he : e ∈ v := by
        rw [hv1]
        exact List.mem_append_right _ (by simp)
      apply matchesAt_false_of_lstarts
      show ('U' == a && ('R' == b && ('I' == c && ('=' == d &&
        ('"' == e && lstarts [] ((a₅ ++ ['"']) ++ rest)))))) = false
      rw [char_beq_false '"' e (Ne.symm (hvq e he))]
      simp
  · cases c' with
    | nil =>
      rw [List.nil_append] at hc2
      subst hc2
      exact matchesAt_false_head '"' rest (by decide)
    | cons x c'' =>
      rw [List.cons_append] at hc2
      injection hc2 with hx hc2
      exact absurd (List.append_eq_nil.mp hc2.symm).2 h₂

theorem lstarts_uriPat_matches (v Z : List Char) (hvne : v ≠ [])
    (hvq : ∀ c ∈ v, c ≠ '"') (h : lstarts (uriPat v) Z = true) :
    matchesAt Z = true ∧ valueAt Z = v := by
  rcases (lstarts_iff _ _).mp h with ⟨t, rfl⟩
  exact matchesAt_uriPat v t hvne hvq


/-! ### The rewritten value of a match is inert in later passes -/

theorem transformVal_good (protocol basePath proxyU : List Char)
    (hp : ∀ c ∈ proxyU, isJsSpace c = false ∧ c ≠ '"')
    (v : List Char) (hvne : v ≠ []) (hvq : ∀ c ∈ v, c ≠ '"')
    (hvu : containsSub "URI=".data v = false) :
    transformVal protocol basePath proxyU v ≠ [] ∧
    (∀ c ∈ transformVal protocol basePath proxyU v, c ≠ '"') ∧
    (∀ a : List Char, transformVal protocol basePath proxyU v ≠ a ++ "URI=".data) ∧
    skipOrFail protocol basePath proxyU (transformVal protocol basePath proxyU v) ∧
    (∀ c ∈ transformVal protocol basePath proxyU v, c ∈ v ∨ isJsSpace c = false) := by
  have hvU : ∀ a : List Char, v ≠ a ++ "URI=".data := by
    intro a hva
    have hcon : containsSub "URI=".data v = true := by
      rw [hva, show (a ++ "URI=".data : List Char) = a ++ "URI=".data ++ [] by simp]
      exact containsSub_of_parts _ a []
    rw [hvu] at hcon
    exact absurd hcon (by decide)
  by_cases hskip : lstarts proxyU v = true
  · have htv : transformVal protocol basePath proxyU v = v := by
      unfold transformVal
      rw [if_pos hskip]
    rw [htv]
    exact ⟨hvne, hvq, hvU, Or.inl hskip, fun c hc => Or.inl hc⟩
  · cases hres : resolveRef protocol basePath v with
    | none =>
      have htv : transformVal protocol basePath proxyU v = v := by
        unfold transformVal
        rw [if_neg hskip, hres]
      rw [htv]
      exact ⟨hvne, hvq, hvU, Or.inr hres, fun c hc => Or.inl hc⟩
    | some abs =>
      have htv : transformVal protocol basePath proxyU v = proxify proxyU abs := by
        unfold transformVal
        rw [if_neg hskip, hres]
      rw [htv]
      refine ⟨?_, ?_, ?_, ?_, ?_⟩
      · intro h0
        unfold proxify at h0
        have hlen := congrArg List.length h0
        rw [List.length_append, List.length_append] at hlen
        have h5 : ("?url=".data).length = 5 := rfl
        rw [h5, List.length_nil] at hlen
        omega
      · intro c hc
        exact (proxify_chars proxyU abs hp c hc).2
      · intro a hwa
        unfold proxify at hwa
        rcases List.eq_nil_or_concat (encodeURIComponent abs) with henc | ⟨e₁, ce, henc⟩
        · rw [henc, List.append_nil] at hwa
          have h2 : (proxyU ++ ['?']) ++ "url=".data = a ++ "URI=".data := by
            rw [List.append_assoc]
            exact hwa
          have h3 := List.append_inj' h2 (by rfl)
          exact absurd h3.2 (by decide)
        · rw [henc, List.concat_eq_append, ← List.append_assoc] at hwa
          have e4 : a ++ "URI=".data = (a ++ "URI".data) ++ ['='] := by
            rw [List.append_assoc,
              show ("URI".data ++ ['='] : List Char) = "URI=".data from rfl]
          have h5 := List.append_inj' (hwa.trans e4) (by rfl)
          have hce : ce = '=' := by
            have h6 := h5.2
            injection h6 with h7 h8
          have hmem : ce ∈ encodeURIComponent abs := by
            rw [henc]
            simp
          exact absurd hce
            (encSafe_ne_eq ce (encodeURIComponent_safe abs ce hmem))
      · left
        show lstarts proxyU (proxyU ++ "?url=".data ++ encodeURIComponent abs) = true
        rw [List.append_assoc]
        exact lstarts_append_self proxyU _
      · intro c hc
        exact Or.inr (proxify_chars proxyU abs hp c hc).1


/-! ### The prefix invariant survives one step of the directive fold -/

theorem cleanPre_extend (protocol basePath proxyU : List Char)
    (A g v v' rest : List Char)
    (hA : cleanPre protocol basePath proxyU A ((g ++ uriPat v) ++ rest))
    (hg : ∀ g₁ g₂ : List Char, g = g₁ ++ g₂ → g₂ ≠ [] →
      matchesAt ((g₂ ++ uriPat v) ++ rest) = false)
    (hv'ne : v' ≠ []) (hv'q : ∀ c ∈ v', c ≠ '"')
    (hv'u : ∀ a : List Char, v' ≠ a ++ "URI=".data)
    (hv'sk : skipOrFail protocol basePath proxyU v') :
    cleanPre protocol basePath proxyU (A ++ (g ++ uriPat v')) rest := by
  have hregion : ∀ a' A₂ : List Char, g ++ uriPat v' = a' ++ A₂ → A₂ ≠ [] →
      matchesAt (A₂ ++ rest) = true →
      skipOrFail protocol basePath proxyU (valueAt (A₂ ++ rest)) := by
    intro a' A₂ hra hne hmat
    rcases List.append_eq_append_iff.mp hra with ⟨x, hx1, hx2⟩ | ⟨x, hx1, hx2⟩
    · cases x with
      | nil =>
        rw [List.nil_append] at hx2
        rw [← hx2, (matchesAt_uriPat v' rest hv'ne hv'q).2]
        exact hv'sk
      | cons xc xs =>
        have hmf := matchesAt_inside_false v' hv'q hv'u rest (xc :: xs) A₂ hx2
          (by simp) hne
        rw [hmf] at hmat
        exact absurd hmat (by decide)
    · cases x with
      | nil =>
        rw [List.nil_append] at hx2
        subst hx2
        rw [(matchesAt_uriPat v' rest hv'ne hv'q).2]
        exact hv'sk
      | cons xc xs =>
        have htr := matchesAt_transfer (xc :: xs) (v' ++ '"' :: rest)
          (v ++ '"' :: rest) (by simp)
        have e1 : A₂ ++ rest = (xc :: xs) ++ (uriAttr ++ (v' ++ '"' :: rest)) := by
          rw [hx2]
          simp [uriPat, List.append_assoc]
        have e2 : (xc :: xs) ++ (uriAttr ++ (v ++ '"' :: rest)) =
            ((xc :: xs) ++ uriPat v) ++ rest := by
          simp [uriPat, List.append_assoc]
        have hgm := hg a' (xc :: xs) hx1 (by simp)
        rw [e1, htr.1, e2, hgm] at hmat
        exact absurd hmat (by decide)
  intro A₁ A₂ hsplit hne hmat
  rcases List.append_eq_append_iff.mp hsplit with ⟨x, hx1, hx2⟩ | ⟨x, hx1, hx2⟩
  · exact hregion x A₂ hx2 hne hmat
  · cases x with
    | nil =>
      rw [List.nil_append] at hx2
      exact hregion [] A₂ (by rw [List.nil_append, hx2]) hne hmat
    | cons xc xs =>
      have htr := matchesAt_transfer ((xc :: xs) ++ g) (v' ++ '"' :: rest)
        (v ++ '"' :: rest) (by simp)
      have e1 : A₂ ++ rest = ((xc :: xs) ++ g) ++ (uriAttr ++ (v' ++ '"' :: rest)) := by
        rw [hx2]
        simp [uriPat, List.append_assoc]
      have e2 : ((xc :: xs) ++ g) ++ (uriAttr ++ (v ++ '"' :: rest)) =
          (xc :: xs) ++ ((g ++ uriPat v) ++ rest) := by
        simp [uriPat, List.append_assoc]
      have hmat2 : matchesAt ((xc :: xs) ++ ((g ++ uriPat v) ++ rest)) = true := by
        rw [← e2, ← htr.1, ← e1]
        exact hmat
      have hsk := hA A₁ (xc :: xs) hx1 (by simp) hmat2
      have hveq : valueAt (A₂ ++ rest) =
          valueAt ((xc :: xs) ++ ((g ++ uriPat v) ++ rest)) := by
        rw [e1, htr.2, e2]
      rw [hveq]
      exact hsk

/-! ### The directive fold computes the structural rewrite -/

theorem fold_spec (protocol basePath proxyU : List Char)
    (hp : ∀ c ∈ proxyU, isJsSpace c = false ∧ c ≠ '"')
    (hpd : '$' ∉ proxyU) :
    ∀ (s : List Char) (vs : List (List Char)), UriScan s vs →
    (∀ v ∈ vs, containsSub "URI=".data v = false) →
    ∀ A : List Char, cleanPre protocol basePath proxyU A s →
    List.foldl
      (fun acc v =>
        if lstarts proxyU v then acc
        else
          match resolveRef protocol basePath v with
          | some abs => replaceFirst acc (uriPat v) (uriPat (proxify proxyU abs))
          | none => acc)
      (A ++ s) vs = A ++ rewriteScan protocol basePath proxyU s := by
  intro s vs hscan
  induction hscan with
  | nil s h0 =>
    intro _ A _
    rw [List.foldl_nil, rewriteScan_noMatch protocol basePath proxyU s h0]
  | cons g v rest vs hg hv hrest ih =>
    intro hvu A hA
    have hvune : containsSub "URI=".data v = false := hvu v (List.mem_cons_self _ _)
    have hgood := transformVal_good protocol basePath proxyU hp v hv.1 hv.2 hvune
    have hvu' : ∀ v' ∈ vs, containsSub "URI=".data v' = false :=
      fun v' hv' => hvu v' (List.mem_cons_of_mem _ hv')
    rw [List.foldl_cons]
    by_cases hskip : lstarts proxyU v = true
    · have htv : transformVal protocol basePath proxyU v = v := by
        unfold transformVal
        rw [if_pos hskip]
      rw [htv] at hgood
      rw [if_pos hskip]
      have hassoc : A ++ (g ++ uriPat v ++ rest) = (A ++ (g ++ uriPat v)) ++ rest := by
        simp [List.append_assoc]
      have hclean := cleanPre_extend protocol basePath proxyU A g v v rest hA hg
        hgood.1 hgood.2.1 hgood.2.2.1 hgood.2.2.2.1
      rw [hassoc, ih hvu' (A ++ (g ++ uriPat v)) hclean,
        rewriteScan_gap protocol basePath proxyU v rest hv.1 hv.2 g hg, htv]
      simp [List.append_assoc]
    · cases hres : resolveRef protocol basePath v with
      | none =>
        have htv : transformVal protocol basePath proxyU v = v := by
          unfold transformVal
          rw [if_neg hskip, hres]
        rw [htv] at hgood
        rw [if_neg hskip]
        show List.foldl _ (A ++ (g ++ uriPat v ++ rest)) vs = _
        have hassoc : A ++ (g ++ uriPat v ++ rest) = (A ++ (g ++ uriPat v)) ++ rest := by
          simp [List.append_assoc]
        have hclean := cleanPre_extend protocol basePath proxyU A g v v rest hA hg
          hgood.1 hgood.2.1 hgood.2.2.1 hgood.2.2.2.1
        rw [hassoc, ih hvu' (A ++ (g ++ uriPat v)) hclean,
          rewriteScan_gap protocol basePath proxyU v rest hv.1 hv.2 g hg, htv]
        simp [List.append_assoc]
      | some abs =>
        have htv : transformVal protocol basePath proxyU v = proxify proxyU abs := by
          unfold transformVal
          rw [if_neg hskip, hres]
        rw [htv] at hgood
        rw [if_neg hskip]
        show List.foldl _ (replaceFirst (A ++ (g ++ uriPat v ++ rest)) (uriPat v)
          (uriPat (proxify proxyU abs))) vs = _
        have hX : ∀ X1 X2 : List Char, A ++ g = X1 ++ X2 → X2 ≠ [] →
            lstarts (uriPat v) (X2 ++ (uriPat v ++ rest)) = false := by
          intro X1 X2 hsp hne
          cases hls : lstarts (uriPat v) (X2 ++ (uriPat v ++ rest)) with
          | false => rfl
          | true =>
            exfalso
            have hmv := lstarts_uriPat_matches v (X2 ++ (uriPat v ++ rest))
              hv.1 hv.2 hls
            rcases List.append_eq_append_iff.mp hsp with ⟨x, hx1, hx2⟩ | ⟨x, hx1, hx2⟩
            · have hmf := hg x X2 hx2 hne
              have e : (X2 ++ uriPat v) ++ rest = X2 ++ (uriPat v ++ rest) := by
                simp [List.append_assoc]
              rw [e] at hmf
              have h1 := hmv.1
              rw [hmf] at h1
              exact absurd h1 (by decide)
            · cases x with
              | nil =>
                rw [List.nil_append] at hx2
                subst hx2
                have hmf := hg [] X2 rfl hne
                have e : (X2 ++ uriPat v) ++ rest = X2 ++ (uriPat v ++ rest) := by
                  simp [List.append_assoc]
                rw [e] at hmf
                have h1 := hmv.1
                rw [hmf] at h1
                exact absurd h1 (by decide)
              | cons xc xs =>
                have e : X2 ++ (uriPat v ++ rest) =
                    (xc :: xs) ++ ((g ++ uriPat v) ++ rest) := by
                  rw [hx2]
                  simp [List.append_assoc]
                have hmt : matchesAt ((xc :: xs) ++ ((g ++ uriPat v) ++ rest)) = true := by
                  rw [← e]
                  exact hmv.1
                have hsk := hA X1 (xc :: xs) hx1 (by simp) hmt
                have hveq : valueAt ((xc :: xs) ++ ((g ++ uriPat v) ++ rest)) = v := by
                  rw [← e]
                  exact hmv.2
                rw [hveq] at hsk
                rcases hsk with hsk | hsk
                · exact hskip hsk
                · rw [hres] at hsk
                  exact absurd hsk (by simp)
        have hdrepl : '$' ∉ uriPat (proxify proxyU abs) := by
          intro hmem
          rcases List.mem_append.mp hmem with hmem | hmem
          · rcases List.mem_append.mp hmem with hmem | hmem
            · exact absurd hmem (by decide)
            · rcases List.mem_append.mp hmem with hmem | hmem
              · rcases List.mem_append.mp hmem with hmem | hmem
                · exact hpd hmem
                · exact absurd hmem (by decide)
              · exact encSafe_ne_dollar '$'
                  (encodeURIComponent_safe abs '$' hmem) rfl
          · exact absurd hmem (by decide)
        have hXY : A ++ (g ++ uriPat v ++ rest) = (A ++ g) ++ (uriPat v ++ rest) := by
          simp [List.append_assoc]
        rw [hXY, replaceFirst_at (A ++ g) (uriPat v ++ rest) (uriPat v)
          (uriPat (proxify proxyU abs)) (by simp [uriPat, uriAttr]) hdrepl hX
          (lstarts_append_self _ _), List.drop_left]
        have hassoc : (A ++ g) ++ (uriPat (proxify proxyU abs) ++ rest) =
            (A ++ (g ++ uriPat (proxify proxyU abs))) ++ rest := by
          simp [List.append_assoc]
        have hclean := cleanPre_extend protocol basePath proxyU A g v
          (proxify proxyU abs) rest hA hg
          hgood.1 hgood.2.1 hgood.2.2.1 hgood.2.2.2.1
        rw [hassoc, ih hvu' (A ++ (g ++ uriPat (proxify proxyU abs))) hclean,
          rewriteScan_gap protocol basePath proxyU v rest hv.1 hv.2 g hg, htv]
        simp [List.append_assoc]


/-! ### Line-level consequences -/

theorem getLast?_mem_chars (l : List Char) (c : Char)
    (h : l.getLast? = some c) : c ∈ l := by
  induction l with
  | nil => exact absurd h (by simp)
  | cons a as ih =>
    cases as with
    | nil =>
      rw [List.getLast?_singleton] at h
      injection h with h
      simp [h]
    | cons b bs =>
      rw [List.getLast?_cons_cons] at h
      exact List.mem_cons_of_mem _ (ih h)

theorem proxify_ne_nil (proxyU abs : List Char) : proxify proxyU abs ≠ [] := by
  intro h0
  unfold proxify at h0
  have hlen := congrArg List.length h0
  rw [List.length_append, List.length_append,
    show ("?url=".data).length = 5 from rfl, List.length_nil] at hlen
  omega

theorem hash_structure (line : List Char)
    (h : lstarts "#".data (jsTrim line) = true) :
    ∃ W R : List Char, line = W ++ '#' :: R ∧ ∀ x ∈ W, isJsSpace x = true := by
  rcases (lstarts_iff _ _).mp h with ⟨t', ht'⟩
  have ht2 : ((line.dropWhile isJsSpace).reverse.dropWhile isJsSpace).reverse =
      '#' :: t' := ht'
  have h2 : (line.dropWhile isJsSpace).reverse.dropWhile isJsSpace =
      ('#' :: t').reverse := by
    rw [← ht2, List.reverse_reverse]
  have h3 : (line.dropWhile isJsSpace).reverse =
      ((line.dropWhile isJsSpace).reverse.takeWhile isJsSpace) ++
        ('#' :: t').reverse := by
    rw [← h2, List.takeWhile_append_dropWhile]
  have h5 := congrArg List.reverse h3
  rw [List.reverse_append, List.reverse_reverse] at h5
  refine ⟨line.takeWhile isJsSpace,
    t' ++ ((line.dropWhile isJsSpace).reverse.takeWhile isJsSpace).reverse, ?_, ?_⟩
  · conv_lhs => rw [← List.takeWhile_append_dropWhile isJsSpace line, h5]
    simp
  · intro x hx
    exact List.mem_takeWhile_imp hx

theorem rewriteScan_space_hash (protocol basePath proxyU : List Char)
    (W : List Char) (hW : ∀ x ∈ W, isJsSpace x = true) (R : List Char) :
    rewriteScan protocol basePath proxyU (W ++ '#' :: R) =
      W ++ '#' :: rewriteScan protocol basePath proxyU R := by
  induction W with
  | nil =>
    rw [List.nil_append, List.nil_append]
    exact rewriteScan_cons_noMatch protocol basePath proxyU '#' R
      (matchesAt_false_head '#' R (by decide))
  | cons w W' ihW =>
    have hw : isJsSpace w = true := hW w (List.mem_cons_self _ _)
    have hwu : w ≠ 'U' := by
      intro he
      subst he
      rw [show isJsSpace 'U' = false from rfl] at hw
      exact absurd hw (by decide)
    rw [List.cons_append, rewriteScan_cons_noMatch protocol basePath proxyU w _
      (matchesAt_false_head w _ hwu),
      ihW (fun x hx => hW x (List.mem_cons_of_mem _ hx)), List.cons_append]

theorem processedDirective_eq (protocol basePath proxyU : List Char)
    (hp : ∀ c ∈ proxyU, isJsSpace c = false ∧ c ≠ '"')
    (hpd : '$' ∉ proxyU) (line : List Char)
    (hline : ∀ v ∈ matchAllURI line, containsSub "URI=".data v = false) :
    processedDirective protocol basePath proxyU line =
      rewriteScan protocol basePath proxyU line := by
  have hclean : cleanPre protocol basePath proxyU [] line := by
    intro A₁ A₂ h12 hne _
    exact absurd (List.append_eq_nil.mp h12.symm).2 hne
  have h0 := fold_spec protocol basePath proxyU hp hpd line (matchAllURI line)
    (uriScan_matchAllURI line) hline [] hclean
  rw [List.nil_append] at h0
  exact h0

theorem rewriteScan_scan (protocol basePath proxyU : List Char)
    (hp : ∀ c ∈ proxyU, isJsSpace c = false ∧ c ≠ '"') :
    ∀ (s : List Char) (vs : List (List Char)), UriScan s vs →
    (∀ v ∈ vs, containsSub "URI=".data v = false) →
    UriScan (rewriteScan protocol basePath proxyU s)
      (vs.map (transformVal protocol basePath proxyU)) ∧
    ∀ w ∈ vs.map (transformVal protocol basePath proxyU),
      skipOrFail protocol basePath proxyU w := by
  intro s vs hscan
  induction hscan with
  | nil s h0 =>
    intro _
    rw [rewriteScan_noMatch protocol basePath proxyU s h0]
    exact ⟨UriScan.nil s h0, by simp⟩
  | cons g v rest vs hg hv hrest ih =>
    intro hvu
    have hvune := hvu v (List.mem_cons_self _ _)
    have hgood := transformVal_good protocol basePath proxyU hp v hv.1 hv.2 hvune
    rcases ih (fun v' hv' => hvu v' (List.mem_cons_of_mem _ hv')) with ⟨hsc, hsk⟩
    rw [rewriteScan_gap protocol basePath proxyU v rest hv.1 hv.2 g hg,
      List.map_cons]
    constructor
    · refine UriScan.cons g (transformVal protocol basePath proxyU v)
        (rewriteScan protocol basePath proxyU rest)
        (vs.map (transformVal protocol basePath proxyU)) ?_
        ⟨hgood.1, hgood.2.1⟩ hsc
      intro g₁ g₂ h12 hne
      cases g₂ with
      | nil => exact absurd rfl hne
      | cons xc xs =>
        have htr := matchesAt_transfer (xc :: xs)
          (transformVal protocol basePath proxyU v ++
            '"' :: rewriteScan protocol basePath proxyU rest)
          (v ++ '"' :: rest) (by simp)
        have e1 : ((xc :: xs) ++ uriPat (transformVal protocol basePath proxyU v)) ++
            rewriteScan protocol basePath proxyU rest =
            (xc :: xs) ++ (uriAttr ++ (transformVal protocol basePath proxyU v ++
              '"' :: rewriteScan protocol basePath proxyU rest)) := by
          simp [uriPat, List.append_assoc]
        have e2 : (xc :: xs) ++ (uriAttr ++ (v ++ '"' :: rest)) =
            ((xc :: xs) ++ uriPat v) ++ rest := by
          simp [uriPat, List.append_assoc]
        show matchesAt (((xc :: xs) ++ uriPat (transformVal protocol basePath proxyU v)) ++
          rewriteScan protocol basePath proxyU rest) = false
        rw [e1, htr.1, e2]
        exact hg g₁ (xc :: xs) h12 hne
    · intro w hw
      rcases List.mem_cons.mp hw with rfl | hw'
      · exact hgood.2.2.2.1
      · exact hsk w hw'

theorem rewriteScan_chars (protocol basePath proxyU : List Char)
    (hp : ∀ c ∈ proxyU, isJsSpace c = false ∧ c ≠ '"') :
    ∀ (s : List Char) (vs : List (List Char)), UriScan s vs →
    (∀ v ∈ vs, containsSub "URI=".data v = false) →
    ∀ c ∈ rewriteScan protocol basePath proxyU s,
      c ∈ s ∨ isJsSpace c = false := by
  intro s vs hscan
  induction hscan with
  | nil s h0 =>
    intro _ c hc
    rw [rewriteScan_noMatch protocol basePath proxyU s h0] at hc
    exact Or.inl hc
  | cons g v rest vs hg hv hrest ih =>
    intro hvu c hc
    have hvune := hvu v (List.mem_cons_self _ _)
    have hgood := transformVal_good protocol basePath proxyU hp v hv.1 hv.2 hvune
    rw [rewriteScan_gap protocol basePath proxyU v rest hv.1 hv.2 g hg] at hc
    rcases List.mem_append.mp hc with hc | hc
    · rcases List.mem_append.mp hc with hc | hc
      · exact Or.inl (List.mem_append_left _ (List.mem_append_left _ hc))
      · rcases List.mem_append.mp hc with hc | hc
        · rcases List.mem_append.mp hc with hc | hc
          · right
            have : ∀ x ∈ uriAttr, isJsSpace x = false := by decide
            exact this c hc
          · rcases hgood.2.2.2.2 c hc with hcv | hcs
            · left
              have hmem : c ∈ uriPat v :=
                List.mem_append_left ['"'] (List.mem_append_right uriAttr hcv)
              exact List.mem_append_left rest (List.mem_append_right g hmem)
            · exact Or.inr hcs
        · right
          have hcq : c = '"' := by simpa using hc
          rw [hcq]
          decide
    · rcases ih (fun v' hv' => hvu v' (List.mem_cons_of_mem _ hv')) c hc with hcr | hcs
      · exact Or.inl (List.mem_append_right _ hcr)
      · exact Or.inr hcs


theorem bool_not_true (b : Bool) (h : ¬ b = true) : b = false := by
  cases hb : b with
  | false => rfl
  | true => exact absurd hb h

theorem processLine_eval_dir (protocol basePath proxyU line : List Char)
    (hdir : lstarts "#".data (jsTrim line) = true)
    (hcont : containsSub uriAttr line = true) :
    processLine protocol basePath proxyU line =
      processedDirective protocol basePath proxyU line := by
  simp only [processLine]
  rw [hdir]
  simp only [if_true]
  rw [if_pos hcont]

theorem processLine_eval_dir_nocont (protocol basePath proxyU line : List Char)
    (hdir : lstarts "#".data (jsTrim line) = true)
    (hcont : containsSub uriAttr line = false) :
    processLine protocol basePath proxyU line = line := by
  simp only [processLine]
  rw [hdir]
  simp only [if_true]
  rw [if_neg (by rw [hcont]; simp)]

theorem processLine_eval_blank (protocol basePath proxyU line : List Char)
    (hdir : lstarts "#".data (jsTrim line) = false)
    (hemp : (jsTrim line).isEmpty = true) :
    processLine protocol basePath proxyU line = line := by
  simp only [processLine]
  rw [hdir, hemp]
  simp

theorem processLine_eval_nodir_res (protocol basePath proxyU line abs : List Char)
    (hdir : lstarts "#".data (jsTrim line) = false)
    (hne : (jsTrim line).isEmpty = false)
    (hpre : lstarts proxyU (jsTrim line) = false)
    (habs : resolveRef protocol basePath (jsTrim line) = some abs) :
    processLine protocol basePath proxyU line = proxify proxyU abs := by
  simp only [processLine]
  rw [hdir, hne, hpre, habs]
  simp

theorem processLine_idem (protocol basePath proxyU : List Char)
    (hp : ∀ c ∈ proxyU, isJsSpace c = false ∧ c ≠ '"')
    (hpd : '$' ∉ proxyU) (line : List Char)
    (hline : ∀ v ∈ matchAllURI line, containsSub "URI=".data v = false) :
    processLine protocol basePath proxyU
      (processLine protocol basePath proxyU line) =
    processLine protocol basePath proxyU line := by
  by_cases hdir : lstarts "#".data (jsTrim line) = true
  · by_cases hcont : containsSub uriAttr line = true
    · have hout := processLine_eval_dir protocol basePath proxyU line hdir hcont
      have hpdir := processedDirective_eq protocol basePath proxyU hp hpd line hline
      rcases hash_structure line hdir with ⟨W, R, hlW, hWs⟩
      have hscan2 := rewriteScan_scan protocol basePath proxyU hp line
        (matchAllURI line) (uriScan_matchAllURI line) hline
      have hma2 : matchAllURI (rewriteScan protocol basePath proxyU line) =
          (matchAllURI line).map (transformVal protocol basePath proxyU) :=
        uriScan_eq_matchAllURI _ _ hscan2.1
      have hform : rewriteScan protocol basePath proxyU line =
          W ++ '#' :: rewriteScan protocol basePath proxyU R := by
        rw [hlW, rewriteScan_space_hash protocol basePath proxyU W hWs R]
      have hdir2 : lstarts "#".data
          (jsTrim (rewriteScan protocol basePath proxyU line)) = true := by
        rw [hform]
        have hWnil : W.dropWhile isJsSpace = [] :=
          List.dropWhile_eq_nil_iff.mpr (fun a ha => hWs a ha)
        have hd : (W ++ '#' :: rewriteScan protocol basePath proxyU R).dropWhile
            isJsSpace = '#' :: rewriteScan protocol basePath proxyU R := by
          rw [dropWhile_append_of_nil isJsSpace W _ hWnil, List.dropWhile_cons,
            if_neg (by rw [show isJsSpace '#' = false from rfl]; simp)]
        rcases jsTrim_starts (W ++ '#' :: rewriteScan protocol basePath proxyU R)
          '#' (rewriteScan protocol basePath proxyU R) hd (by decide) with ⟨R2, hR2⟩
        rw [hR2]
        exact lstarts_append_self "#".data R2
      rw [hout, hpdir]
      apply processLine_directive_noop protocol basePath proxyU _ hdir2
      intro v hv2
      rw [hma2] at hv2
      exact hscan2.2 v hv2
    · have hout := processLine_eval_dir_nocont protocol basePath proxyU line hdir
        (bool_not_true _ hcont)
      rw [hout]
      exact hout
  · have hdirf := bool_not_true _ hdir
    by_cases hemp : (jsTrim line).isEmpty = true
    · have hout := processLine_eval_blank protocol basePath proxyU line hdirf hemp
      rw [hout]
      exact hout
    · have hnef := bool_not_true _ hemp
      by_cases hpre : lstarts proxyU (jsTrim line) = true
      · have hout := processLine_proxied_noop protocol basePath proxyU line
          hdirf hnef hpre
        rw [hout]
        exact hout
      · have hpref := bool_not_true _ hpre
        cases habs : resolveRef protocol basePath (jsTrim line) with
        | none =>
          have hout := processLine_fail_noop protocol basePath proxyU line
            hdirf hnef hpref habs
          rw [hout]
          exact hout
        | some abs =>
          have hout := processLine_eval_nodir_res protocol basePath proxyU line abs
            hdirf hnef hpref habs
          rw [hout]
          have hw : ∀ c ∈ proxify proxyU abs, isJsSpace c = false ∧ c ≠ '"' :=
            proxify_chars proxyU abs hp
          have hjt : jsTrim (proxify proxyU abs) = proxify proxyU abs :=
            jsTrim_eq_self _ (fun c hc => (hw c hc).1)
          by_cases hdir2 : lstarts "#".data (jsTrim (proxify proxyU abs)) = true
          · have hcf : containsSub uriAttr (proxify proxyU abs) = false := by
              cases hcs : containsSub uriAttr (proxify proxyU abs) with
              | false => rfl
              | true =>
                exfalso
                have hqm := mem_of_containsSub uriAttr (proxify proxyU abs) hcs '"'
                  (by decide)
                exact (hw '"' hqm).2 rfl
            exact processLine_eval_dir_nocont protocol basePath proxyU _ hdir2 hcf
          · apply processLine_proxied_noop protocol basePath proxyU _
              (bool_not_true _ hdir2)
            · rw [hjt]
              cases hpe : proxify proxyU abs with
              | nil => exact absurd hpe (proxify_ne_nil proxyU abs)
              | cons a as => rfl
            · rw [hjt]
              show lstarts proxyU
                (proxyU ++ "?url=".data ++ encodeURIComponent abs) = true
              rw [List.append_assoc]
              exact lstarts_append_self proxyU _

theorem processLine_chars (protocol basePath proxyU line : List Char)
    (hp : ∀ c ∈ proxyU, isJsSpace c = false ∧ c ≠ '"')
    (hpd : '$' ∉ proxyU)
    (hline : ∀ v ∈ matchAllURI line, containsSub "URI=".data v = false) :
    ∀ c ∈ processLine protocol basePath proxyU line,
      c ∈ line ∨ isJsSpace c = false := by
  by_cases hdir : lstarts "#".data (jsTrim line) = true
  · by_cases hcont : containsSub uriAttr line = true
    · rw [processLine_eval_dir protocol basePath proxyU line hdir hcont,
        processedDirective_eq protocol basePath proxyU hp hpd line hline]
      exact rewriteScan_chars protocol basePath proxyU hp line (matchAllURI line)
        (uriScan_matchAllURI line) hline
    · rw [processLine_eval_dir_nocont protocol basePath proxyU line hdir
        (bool_not_true _ hcont)]
      exact fun c hc => Or.inl hc
  · have hdirf := bool_not_true _ hdir
    by_cases hemp : (jsTrim line).isEmpty = true
    · rw [processLine_eval_blank protocol basePath proxyU line hdirf hemp]
      exact fun c hc => Or.inl hc
    · have hnef := bool_not_true _ hemp
      by_cases hpre : lstarts proxyU (jsTrim line) = true
      · rw [processLine_proxied_noop protocol basePath proxyU line hdirf hnef hpre]
        exact fun c hc => Or.inl hc
      · have hpref := bool_not_true _ hpre
        cases habs : resolveRef protocol basePath (jsTrim line) with
        | none =>
          rw [processLine_fail_noop protocol basePath proxyU line hdirf hnef
            hpref habs]
          exact fun c hc => Or.inl hc
        | some abs =>
          rw [processLine_eval_nodir_res protocol basePath proxyU line abs hdirf
            hnef hpref habs]
          exact fun c hc => Or.inr (proxify_chars proxyU abs hp c hc).1


theorem processM3u8L_idem (content baseUrl proxyU : List Char)
    (hcr : '\r' ∉ content)
    (hp : ∀ c ∈ proxyU, isJsSpace c = false ∧ c ≠ '"')
    (hpd : '$' ∉ proxyU)
    (hu : ∀ l ∈ splitLines content, ∀ v ∈ matchAllURI l,
      containsSub "URI=".data v = false) :
    processM3u8L (processM3u8L content baseUrl proxyU) baseUrl proxyU =
      processM3u8L content baseUrl proxyU := by
  cases hpp : parseUrlProtocol baseUrl with
  | none =>
    unfold processM3u8L
    rw [hpp]
  | some protocol =>
    have h1 : processM3u8L content baseUrl proxyU =
        joinLF ((splitLines content).map
          (processLine protocol (m3u8BasePath baseUrl) proxyU)) := by
      unfold processM3u8L
      rw [hpp]
    have hls : ∀ l ∈ (splitLines content).map
        (processLine protocol (m3u8BasePath baseUrl) proxyU),
        '\n' ∉ l ∧ l.getLast? ≠ some '\r' := by
      intro l' hl'
      rcases List.mem_map.mp hl' with ⟨l, hl, rfl⟩
      have hchars := processLine_chars protocol (m3u8BasePath baseUrl) proxyU l
        hp hpd (hu l hl)
      have hlnl : '\n' ∉ l := splitLines_no_newline content l hl
      have hlcr : '\r' ∉ l := fun hin => hcr (splitLines_chars content l hl '\r' hin)
      constructor
      · intro hin
        rcases hchars '\n' hin with h | h
        · exact hlnl h
        · rw [show isJsSpace '\n' = true from rfl] at h
          exact absurd h (by decide)
      · intro hlast
        have hin := getLast?_mem_chars _ _ hlast
        rcases hchars '\r' hin with h | h
        · exact hlcr h
        · rw [show isJsSpace '\r' = true from rfl] at h
          exact absurd h (by decide)
    have hnn : (splitLines content).map
        (processLine protocol (m3u8BasePath baseUrl) proxyU) ≠ [] := by
      intro h0
      exact splitLines_ne_nil content (List.map_eq_nil_iff.mp h0)
    rw [h1]
    have h2 : processM3u8L (joinLF ((splitLines content).map
        (processLine protocol (m3u8BasePath baseUrl) proxyU))) baseUrl proxyU =
        joinLF ((splitLines (joinLF ((splitLines content).map
          (processLine protocol (m3u8BasePath baseUrl) proxyU)))).map
          (processLine protocol (m3u8BasePath baseUrl) proxyU)) := by
      unfold processM3u8L
      rw [hpp]
    rw [h2, splitLines_joinLF _ hnn hls, List.map_map]
    congr 1
    apply List.map_congr_left
    intro l hl
    exact processLine_idem protocol (m3u8BasePath baseUrl) proxyU hp hpd l (hu l hl)

set_option maxRecDepth 100000 in
/-- **C7, counterexample.**  The playlist rewrite is not idempotent as
claimed for every input: on the text consisting of the characters
CR CR LF (between two directive comments) the first pass normalises the
stray carriage return away only partially, and a second pass changes the
document again, because the line splitter treats a lone CR differently
once it becomes adjacent to the LF produced by the first join. -/
theorem processM3u8_not_idempotent :
    processM3u8 "#A\r\r\n#B" "https://example.com/x.m3u8" "/proxy" = "#A\r\n#B" ∧
    processM3u8 (processM3u8 "#A\r\r\n#B" "https://example.com/x.m3u8" "/proxy")
        "https://example.com/x.m3u8" "/proxy" = "#A\n#B" ∧
    ("#A\n#B" : String) ≠ "#A\r\n#B" :=
  ⟨rfl, rfl, by decide⟩

/-- **C7 (amended).**  The playlist rewrite is idempotent for carriage
return free documents and a proxy base path free of whitespace, quotes
and dollar signs (a dollar sign in the base path would be expanded by
the replace substitution rules and is excluded), provided no captured
URI attribute value itself contains the four characters URI and the
equals sign in sequence: a second pass with the same source URL and
proxy base path returns the output of the first pass unchanged.  In
particular every line and every attribute value that already begins
with the proxy base path is left untouched by the second pass. -/
theorem processM3u8_idempotent (content baseUrl proxyUrl : String)
    (hcr : '\r' ∉ content.data)
    (hp : ∀ c ∈ proxyUrl.data, isJsSpace c = false ∧ c ≠ '"' ∧ c ≠ '$')
    (hu : ∀ l ∈ splitLines content.data, ∀ v ∈ matchAllURI l,
      containsSub "URI=".data v = false) :
    processM3u8 (processM3u8 content baseUrl proxyUrl) baseUrl proxyUrl =
      processM3u8 content baseUrl proxyUrl :=
  congrArg String.mk
    (processM3u8L_idem content.data baseUrl.data proxyUrl.data hcr
      (fun c hc => ⟨(hp c hc).1, (hp c hc).2.1⟩)
      (fun hm => (hp '$' hm).2.2 rfl) hu)

set_option maxRecDepth 400000 in
/-- Witness for the amended C7 theorem: a concrete two-line playlist with
a directive URI attribute and a bare segment reference is a fixed point
of the second rewrite pass. -/
theorem processM3u8_idempotent_witness :
    processM3u8 (processM3u8 "#EXT-X-KEY:METHOD=AES-128,URI=\"key.bin\"\nsegment001.ts"
        "https://cdn.example.com/videos/show/index.m3u8" "/proxy")
      "https://cdn.example.com/videos/show/index.m3u8" "/proxy" =
    processM3u8 "#EXT-X-KEY:METHOD=AES-128,URI=\"key.bin\"\nsegment001.ts"
      "https://cdn.example.com/videos/show/index.m3u8" "/proxy" :=
  processM3u8_idempotent _ _ _ (by decide) (by decide) (by decide)

end Shrina
